import Mathlib

/-!
Verification development for the algex symbolic-algebra engine
(packages factor and terms).

The Go source is shallowly embedded here:
  * Go strings are modelled as lists of characters (`Str`); the inputs of
    interest are ASCII, where Go's byte-wise string order agrees with the
    character-wise order `strLt` below.
  * `math/big` rationals are modelled as `ℚ` (both are kept in reduced
    normal form).  `big.Rat.Inv` of zero and method calls through nil
    pointers panic in Go; the model totalises those states (0⁻¹ = 0 in ℚ,
    a nil map iterates as empty) and each such spot is marked with a
    comment.  No claim below depends on a panicking state.
  * A Go map `map[string]X` is modelled as an association list sorted
    strictly by key.  Go's map iteration order is unspecified; every
    iteration in the embedded code is either order-independent (inserts
    commute) or sorts its keys first, so the sorted order is one of the
    realisable executions.
  * The unbounded loops of the source (`factor.Replace` with max ≤ 0, the
    fixed-point loop of `Substituted`, the scanning loop of
    `parseFracInt`) take an explicit fuel argument; exhausted fuel
    returns the state reached so far.
-/

namespace Algex

abbrev Str := List Char

/-- Character-wise lexicographic strict order on `Str` (Go's `<` on
strings, byte-wise; identical for ASCII text). -/
def strLt : Str → Str → Bool
  | [], [] => false
  | [], _ :: _ => true
  | _ :: _, [] => false
  | a :: as, b :: bs => if a < b then true else if b < a then false else strLt as bs

/-- Render a natural number in base 10 (auxiliary, fuel = number of digits). -/
def natToStrAux : Nat → Nat → Str
  | 0, _ => []
  | fuel + 1, n => if n = 0 then [] else natToStrAux fuel (n / 10) ++ [Char.ofNat (48 + n % 10)]

def natToStr (n : Nat) : Str :=
  if n = 0 then ['0'] else natToStrAux (n + 1) n

def intToStr (i : Int) : Str :=
  if i < 0 then '-' :: natToStr i.natAbs else natToStr i.natAbs

/-- `big.Rat.RatString`: `num` when the denominator is 1, else `num/den`. -/
def ratStr (q : ℚ) : Str :=
  if q.den = 1 then intToStr q.num else intToStr q.num ++ ['/'] ++ natToStr q.den

def strJoin (sep : Str) : List Str → Str
  | [] => []
  | [x] => x
  | x :: y :: rest => x ++ sep ++ strJoin sep (y :: rest)

/-! ## package factor -/

/-- `factor.Value`: either a rational number (`num` set) or a
symbol-with-power.  Kept as a struct, as in the source, so that the
non-tagged states Go can reach are representable. -/
structure Value where
  num : Option ℚ
  pow : Int
  sym : Str
deriving DecidableEq, Repr, Inhabited

/-- `factor.R`. -/
def R (n : ℚ) : Value := ⟨some n, 0, []⟩

/-- `factor.I`. -/
def Iv (n : Int) : Value := ⟨some (n : ℚ), 0, []⟩

/-- `factor.D` (undefined in Go for den = 0, which panics; here maps to 0). -/
def D (num den : Int) : Value := ⟨some ((num : ℚ) / (den : ℚ)), 0, []⟩

/-- `factor.S`. -/
def S (sym : Str) : Value := ⟨none, 1, sym⟩

/-- `factor.Sp`. -/
def Sp (sym : Str) (pow : Int) : Value :=
  if pow = 0 then D 1 1 else ⟨none, pow, sym⟩

/-- `factor.Value.String`. -/
def valueStr (v : Value) : Str :=
  match v.num with
  | some q => ratStr q
  | none =>
    if v.sym ≠ [] then
      if v.pow = 1 then v.sym else v.sym ++ ['^'] ++ intToStr v.pow
    else ['<', 'E', 'R', 'R', 'O', 'R', '>']

/-- Order used by `sort.Sort(ByAlpha(...))`: name ascending, power
descending on equal names (total preorder; `valLe x y ↔ ¬ Less y x`). -/
def valLeB (x y : Value) : Bool :=
  strLt x.sym y.sym || (x.sym = y.sym && y.pow ≤ x.pow)

def valLe (x y : Value) : Prop := valLeB x y = true

instance : DecidableRel valLe := fun x y => by unfold valLe; infer_instance

def sortVals (vs : List Value) : List Value := List.insertionSort valLe vs

/-- Numeric part of `factor.Simplify`: the product of all numeric factors. -/
def numProd (vs : List Value) : ℚ :=
  vs.foldl (fun n v => match v.num with | some q => n * q | none => n) 1

/-- Symbolic part of `factor.Simplify`: the non-numeric factors in order. -/
def symsOf (vs : List Value) : List Value := vs.filter (fun v => v.num = none)

/-- The merging loop of `factor.Simplify`, with the result accumulator
reversed (its head is the element Go calls `last`).  The `[]` accumulator
case is unreachable from `Simplify` (Go would index out of bounds). -/
def mergeRev : List Value → List Value → List Value
  | res, [] => res
  | [], s :: rest => mergeRev [s] rest
  | last :: res, s :: rest =>
    if last.sym ≠ s.sym then mergeRev (s :: last :: res) rest
    else
      let p := last.pow + s.pow
      if p = 0 then mergeRev res rest
      else mergeRev ({ last with pow := p } :: res) rest

/-- `factor.Simplify`.  (`sort.Sort` is an unspecified comparison sort;
`sortVals` is one sorted-by-`ByAlpha` permutation of the symbols.) -/
def Simplify (vs : List Value) : List Value :=
  if vs = [] then []
  else if vs.any (fun v => v.num = some 0) then []
  else (mergeRev [R (numProd vs)] (sortVals (symsOf vs))).reverse

/-- `factor.Prod`. -/
def prodStr (vs : List Value) : Str :=
  match vs with
  | [] => ['0']
  | v :: rest =>
    let (pre, items) :=
      if rest ≠ [] then
        match v.num with
        | some q =>
          if q = 1 then (([] : Str), rest)
          else if q = -1 then (['-'], rest)
          else (([] : Str), v :: rest)
        | none => (([] : Str), v :: rest)
      else (([] : Str), [v])
    pre ++ strJoin ['*'] (items.map valueStr)

/-- `factor.Segment`.  Go returns a triple whose coefficient pointer is
nil when `Simplify` gives the empty list, or (only from states no public
constructor produces) when the head of the simplified list is not a
number; both produce `none` here, which every caller of interest treats
as Go treats the nil coefficient. -/
def Segment (vs : List Value) : Option (ℚ × List Value × Str) :=
  match Simplify vs with
  | [] => none
  | x :: rest =>
    match x.num with
    | none => none
    | some q => some (q, rest, prodStr rest)

/-- `factor.Order`. -/
def orderOf (a : List Value) : Int := a.foldl (fun n v => n + v.pow) 0

/-- The matching scan inside `factor.Replace` (indices `i`, `j` and the
`GIVEUP` label of the source become structural recursion; `none` is the
give-up/no-match outcome, `some` carries `nf ++ qf[j:]`). -/
def matchLoop : List Value → List Value → List Value → Option (List Value)
  | [], qf, nf => some (nf ++ qf)
  | _ :: _, [], _ => none
  | t :: pf, u :: qf, nf =>
    if u.num.isSome || t.sym ≠ u.sym then matchLoop (t :: pf) qf (nf ++ [u])
    else if t.pow * u.pow < 0 then none
    else if (u.pow - t.pow) * t.pow < 0 then none
    else matchLoop pf qf (nf ++ (if u.pow - t.pow ≠ 0 then [Sp t.sym (u.pow - t.pow)] else []))

/-- The replacement loop of `factor.Replace`; `c'` is `c ++ [R r]` with
`r` the reciprocal of the pattern's coefficient.  Fuel bounds the number
of replacements actually performed; for `mx ≥ 1` a fuel of `mx` is
exact, for `mx ≤ 0` the Go loop is unbounded. -/
def replaceLoop (pf c' : List Value) : Nat → Int → Nat → List Value → Nat × List Value
  | 0, _, n, qf => (n, qf)
  | fuel + 1, mx, n, qf =>
    if pf ≠ [] ∧ (mx ≤ 0 ∨ (n : Int) < mx) then
      match matchLoop pf qf [] with
      | none => (n, qf)
      | some nf => replaceLoop pf c' fuel mx (n + 1) (Simplify (nf ++ c'))
    else (n, qf)

/-- `factor.Replace`.  When `b` simplifies away entirely Go dereferences
a nil `*big.Rat` (panic) before its loop; the model returns the
untouched state `(0, Simplify a)` for that case. -/
def replaceF (fuel : Nat) (a b c : List Value) (mx : Int) : Nat × List Value :=
  match Segment b with
  | none => (0, Simplify a)
  | some (pn, pf, _) => replaceLoop pf (c ++ [R pn⁻¹]) fuel mx 0 (Simplify a)

/-- `factor.GCF` (the two-index walk, with the combined length of the
remaining lists as a structural measure so that the kernel can reduce
it). -/
def GCFaux : Nat → List Value → List Value → List Value
  | 0, _, _ => []
  | _ + 1, [], _ => []
  | _ + 1, _ :: _, [] => []
  | fuel + 1, x :: a, y :: b =>
    if strLt x.sym y.sym then GCFaux fuel a (y :: b)
    else if strLt y.sym x.sym then GCFaux fuel (x :: a) b
    else (if x.pow < y.pow then x else y) :: GCFaux fuel a b

def GCF (a b : List Value) : List Value :=
  GCFaux (a.length + b.length) a b

/-- `factor.Inv`. -/
def invF (a : List Value) : List Value :=
  a.filterMap fun x => if x.pow = 0 then none else some ⟨none, -x.pow, x.sym⟩

/-- `factor.Den`. -/
def denF (vs : List Value) : List Value :=
  vs.filterMap fun x => if 0 ≤ x.pow then none else some ⟨none, -x.pow, x.sym⟩

/-- `factor.LCP`. -/
def LCP (a b : List Value) : List Value :=
  Simplify (invF (GCF a b) ++ a ++ b)

/-- The error values of the source (`factor.ErrDone`, `factor.ErrSyntax`,
`terms.ErrBadFirstChar`, the ad-hoc `fmt.Errorf` parse errors, and
`terms.ErrNoAnswer` / `terms.ErrAmbiguousLeadingFn`). -/
inductive GoErr where
  | done
  | syn
  | badFirstChar
  | parse
  | noAnswer
  | ambiguousFn
deriving DecidableEq, Repr

/-! ## package terms: expressions -/

/-- `terms.Term`.  Go's `Coeff` is a `*big.Rat`; the nil pointer (which
only ever reaches a `Term` through code paths that poison the value and
panic later) is not represented, see `Segment`. -/
structure Term where
  coeff : ℚ
  fact : List Value
deriving DecidableEq, Repr, Inhabited

/-- The contents of `terms.Exp.terms` (`map[string]Term`), as an
association list sorted strictly by key. -/
abbrev Terms := List (Str × Term)

/-- `*terms.Exp`: `none` is Go's nil pointer, `some l` an allocated
expression whose map holds `l`. -/
abbrev Exp := Option Terms

/-- `terms.Exp.insert`: merge a coefficient and factor list into the map
under key `s`, deleting the entry when the combined coefficient is 0. -/
def insertT : Terms → ℚ → List Value → Str → Terms
  | [], n, fs, s => [(s, ⟨n, fs⟩)]
  | (k, t) :: rest, n, fs, s =>
    if strLt s k then (s, ⟨n, fs⟩) :: (k, t) :: rest
    else if s = k then
      (if n + t.coeff = 0 then rest else (k, ⟨n + t.coeff, t.fact⟩) :: rest)
    else (k, t) :: insertT rest n fs s

def insertAll (acc : Terms) (l : Terms) : Terms :=
  l.foldl (fun acc st => insertT acc st.2.coeff st.2.fact st.1) acc

/-- `terms.NewExp`. -/
def NewExp (ts : List (List Value)) : Exp :=
  some (ts.foldl
    (fun acc t =>
      match Segment t with
      | none => acc
      | some (n, fs, s) => insertT acc n fs s) [])

/-- `terms.Exp.IsZero`. -/
def IsZero (e : Exp) : Bool :=
  match e with
  | none => true
  | some l => l.isEmpty

/-- `terms.Exp.String` (keys are already sorted in this model, which is
the order `sort.Strings` produces). -/
def expStr (e : Exp) : Str :=
  match e with
  | none => ['0']
  | some [] => ['0']
  | some (first :: rest) =>
    prodStr (R first.2.coeff :: first.2.fact) ++
      (rest.map fun st =>
        let t := prodStr (R st.2.coeff :: st.2.fact)
        if t.head? = some '-' then t else '+' :: t).flatten

/-- `terms.Sum` (nil arguments are skipped, as in the source). -/
def SumE (as : List Exp) : Exp :=
  some (as.foldl
    (fun acc a =>
      match a with
      | none => acc
      | some l => insertAll acc l) [])

/-- `terms.Exp.Add`. -/
def addE (a b : Exp) : Exp := SumE [a, b]

/-- `terms.Exp.Sub` (Go panics when `b` is nil; modelled as empty). -/
def subE (a b : Exp) : Exp :=
  some ((b.getD []).foldl
    (fun acc st => insertT acc (-1 * st.2.coeff) st.2.fact st.1)
    (insertAll [] (a.getD [])))

/-- `var zero = []factor.Value{factor.R(&big.Rat{})}`. -/
def zeroVs : List Value := [R 0]

/-- `var one = []factor.Value{factor.I(big.NewInt(1))}`. -/
def oneVs : List Value := [Iv 1]

/-- `terms.Exp.Mod` (a direct map write per surviving term; `Int.emod`
is the Euclidean remainder that `big.Int.DivMod` produces). -/
def modE (e : Exp) (x : Value) : Exp :=
  match x.num with
  | none => e
  | some q =>
    if q.den ≠ 1 then e
    else
      match e with
      | none => none
      | some l =>
        some (l.filterMap fun st =>
          if st.2.coeff.den ≠ 1 then some st
          else
            let u := st.2.coeff.num.emod q.num
            if u = 0 then none
            else some (st.1, ⟨(u : ℚ), st.2.fact⟩))

/-- `terms.Mul`.  With no arguments Go returns a nil `*Exp`.  A nil
coefficient from `Segment` (zero product) would be stored as a poisoned
term by Go; it is skipped here and is unreachable under the invariant
proved for the claim on zero coefficients. -/
def MulE (as : List Exp) : Exp :=
  match as with
  | [] => none
  | a :: rest =>
    some (rest.foldl
      (fun e b =>
        (b.getD []).foldl
          (fun f p =>
            e.foldl
              (fun f q =>
                match Segment ([R p.2.coeff, R q.2.coeff] ++ p.2.fact ++ q.2.fact) with
                | none => f
                | some (n, fs, s) => insertT f n fs s) f) [])
      ((SumE [a]).getD []))

/-- One pass of the rewriting loop of `terms.Exp.Substituted`: rebuild
the expression, replacing one occurrence of `b` per term; `s` is the
expanded term list of `c`.  Returns the new map and Go's `again` flag. -/
def substPass (b : List Value) (s : List (List Value)) (g : Terms) : Terms × Bool :=
  g.foldl
    (fun acc st =>
      let (f, again) := acc
      let a := R st.2.coeff :: st.2.fact
      let (hit, y) := replaceF 1 a b zeroVs 1
      if hit = 0 then
        match Segment y with
        | none => (f, again)
        | some (n, fs, tag) => (insertT f n fs tag, again)
      else if s = [] then (f, again)
      else
        (s.foldl
          (fun f t =>
            let y2 := (replaceF 1 a b t 1).2
            match Segment y2 with
            | none => f
            | some (n, fs, tag) => insertT f n fs tag) f, true))
    ([], false)

/-- The outer fixed-point loop of `terms.Exp.Substituted` (unbounded in
Go; fuel-bounded here, exhaustion returns the state reached). -/
def substLoop (b : List Value) (s : List (List Value)) : Nat → Terms → Bool → Terms × Bool
  | 0, g, acted => (g, acted)
  | fuel + 1, g, acted =>
    let (f, again) := substPass b s g
    if again then substLoop b s fuel f true else (f, acted)

/-- `terms.Exp.Substituted`. -/
def SubstitutedF (fuel : Nat) (e : Exp) (b : List Value) (c : Exp) : Exp × Bool :=
  if b = [] then (e, false)
  else
    let s := (c.getD []).map fun st => R st.2.coeff :: st.2.fact
    let (g, acted) := substLoop b s fuel (e.getD []) false
    (some g, acted)

/-- `terms.Exp.Substitute`. -/
def SubstituteF (fuel : Nat) (e : Exp) (b : List Value) (c : Exp) : Exp :=
  (SubstitutedF fuel e b c).1

/-- `terms.Exp.Contains`. -/
def containsE (e : Exp) (b : List Value) : Bool :=
  (e.getD []).any fun st => (replaceF 1 (R st.2.coeff :: st.2.fact) b zeroVs 1).1 ≠ 0

/-- `terms.Exp.Partition` (the current version: a hit contributes the
term divided by one power of `b`, via `Replace(a, b, one, 1)`). -/
def partitionE (e : Exp) (b : List Value) : Exp × Exp :=
  match e with
  | none => (none, none)
  | some l =>
    let (d, r) := l.foldl
      (fun (dr : Terms × Terms) st =>
        let a := R st.2.coeff :: st.2.fact
        let (hit, fac) := replaceF 1 a b oneVs 1
        if hit ≠ 0 then
          match Segment fac with
          | none => dr
          | some (n, fs, s) => (insertT dr.1 n fs s, dr.2)
        else
          match Segment a with
          | none => dr
          | some (n, fs, s) => (dr.1, insertT dr.2 n fs s))
      ([], [])
    (if d = [] then none else some d, if r = [] then none else some r)

/-- `terms.Exp.AsNumber`. -/
def asNumber (e : Exp) : ℚ × Bool :=
  match e with
  | none => (0, true)
  | some l =>
    match l.find? (fun st => st.2.fact = []) with
    | some st => (st.2.coeff, l.length = 1)
    | none => (0, false)

/-- Inner term walk of `terms.Common`: fold `GCF` over the terms of one
expression; the boolean results are the updated `first` flag and whether
the `done` label was jumped to. -/
def commonInner : Terms → List Value → Bool → List Value × Bool × Bool
  | [], f, first => (f, first, false)
  | (_, t) :: rest, f, first =>
    if first ∧ f = [] then commonInner rest t.fact false
    else
      let g := GCF f t.fact
      if g = [] then ([], false, true)
      else commonInner rest g first

def commonGo : List Terms → List Value → Bool → List Value
  | [], f, _ => f
  | a :: rest, f, first =>
    if a = [] then []
    else
      let (f2, first2, broken) := commonInner a f first
      if broken then f2 else commonGo rest f2 first2

/-- `terms.Common`. -/
def commonT (as : List Terms) : Term := ⟨1, commonGo as [] true⟩

/-- `terms.gcd` (`big.Int.GCD` then `Abs`). -/
def gcdI (a b : Int) : Int := (Int.gcd a b : Int)

/-- `terms.lcm` (`Quo` of `|a*b|` by the gcd; Go panics for a = b = 0,
which no caller reaches since the accumulator starts at 1). -/
def lcmI (a b : Int) : Int := ((a * b).natAbs / Int.gcd a b : Nat)

/-- `terms.CommonN`. -/
def commonN (exs : List Exp) : ℚ :=
  let st := exs.foldl
    (fun (acc : Bool × Int × Int) ex =>
      match ex with
      | none => acc
      | some l =>
        l.foldl
          (fun (acc : Bool × Int × Int) st =>
            let (once, n, d) := acc
            let d2 := lcmI d (st.2.coeff.den : Int)
            if once then (true, gcdI n st.2.coeff.num, d2)
            else (true, st.2.coeff.num, d2)) acc)
    (false, 1, 1)
  (st.2.1 : ℚ) / (st.2.2 : ℚ)

/-- One step of the scan in `terms.Exp.Leading` (the loop body, with
its two `continue` conditions). -/
def leadStep (acc : Int × Str × Term) (st : Str × Term) : Int × Str × Term :=
  let (n, leading, _) := acc
  let m := orderOf st.2.fact
  if n > m then acc
  else if n = m ∧ strLt leading st.1 then acc
  else (m, st.1, st.2)

/-- `terms.Exp.Leading`.  The fold keeps Go's skip conditions exactly;
the initial accumulator is the zero `Term` with order 0 and the empty
signature. -/
def leadingE (ex : Exp) : Term × Option GoErr :=
  let st := (ex.getD []).foldl leadStep (0, [], ⟨0, []⟩)
  if st.1 = 0 then (st.2.2, some GoErr.done) else (st.2.2, none)

/-- The `_factor` placeholder symbol of `terms.Exp.Divide`. -/
def replSym : Str := ['_', 'f', 'a', 'c', 't', 'o', 'r']

/-- The `rest` expression of `terms.Exp.Divide`: the leading monomial of
`a` expressed as `(_factor + leading - a) / leading-coefficient`. -/
def divideRest (a : Exp) (lead : Term) : Exp :=
  MulE [subE (addE (NewExp [[S replSym]]) (NewExp [R lead.coeff :: lead.fact])) a,
        NewExp [[R lead.coeff⁻¹]]]

/-- `terms.Exp.Divide` (current version: no common-factor check; failure
is `factor.ErrDone`, either from `Leading` or when no term of the
substituted expression contains the placeholder). -/
def divideF (fuel : Nat) (ex a : Exp) : Exp × Exp × Option GoErr :=
  let (lead, err) := leadingE a
  match err with
  | some e => (none, none, some e)
  | none =>
    let repl := [S replSym]
    let simple := SubstituteF fuel ex lead.fact (divideRest a lead)
    let (x, y) := partitionE simple repl
    match x with
    | none => (none, none, some GoErr.done)
    | some _ => (SubstituteF fuel x repl a, y, none)

/-! ## package terms: fractions -/

mutual
/-- `terms.Frac`: numerator, denominator and the function-token table
(`nil` map distinguished from an empty one, as in Go). -/
inductive Frac : Type where
  | mk : Exp → Exp → Option (List (Str × FnDef)) → Frac

/-- `terms.FnDef`. -/
inductive FnDef : Type where
  | mk : Str → List Frac → FnDef
end

def Frac.num : Frac → Exp
  | .mk n _ _ => n

def Frac.den : Frac → Exp
  | .mk _ d _ => d

def Frac.fns : Frac → Option (List (Str × FnDef))
  | .mk _ _ f => f

def FnDef.name : FnDef → Str
  | .mk n _ => n

def FnDef.args : FnDef → List Frac
  | .mk _ a => a

/-- The `"0/1"` value `terms.NewFrac()` builds. -/
def zeroFrac : Frac := Frac.mk none (NewExp [[D 1 1]]) none

/-- Substring search (`strings.Index(s, tok) != -1`). -/
def strHasSub (tok : Str) : Str → Bool
  | [] => tok.isPrefixOf []
  | c :: rest => tok.isPrefixOf (c :: rest) || strHasSub tok rest

def strReplaceAllAux : Nat → Str → Str → Str → Str
  | 0, s, _, _ => s
  | _ + 1, [], _, _ => []
  | fuel + 1, c :: rest, tok, repl =>
    if tok ≠ [] ∧ tok.isPrefixOf (c :: rest) then
      repl ++ strReplaceAllAux fuel ((c :: rest).drop tok.length) tok repl
    else c :: strReplaceAllAux fuel rest tok repl

/-- `strings.ReplaceAll` (left-to-right, non-overlapping). -/
def strReplaceAll (s tok repl : Str) : Str :=
  strReplaceAllAux s.length s tok repl

/-- Work items for the (mutually recursive in Go) rendering functions
`Frac.String`, `FnDef.String`, `Frac.funcStrings`; folded into one
function that recurses structurally on fuel so the kernel can evaluate
it. -/
inductive RJob where
  | frac : Frac → RJob
  | fnDef : FnDef → RJob
  | fnArgs : List Frac → RJob

def renderAux : Nat → RJob → Str
  | 0, _ => []
  | _ + 1, .fnArgs [] => []
  | fuel + 1, .fnArgs [f] => renderAux fuel (.frac f)
  | fuel + 1, .fnArgs (f :: g :: rest) =>
    renderAux fuel (.frac f) ++ [','] ++ renderAux fuel (.fnArgs (g :: rest))
  | fuel + 1, .fnDef fn =>
    fn.name ++ ['('] ++ renderAux fuel (.fnArgs fn.args) ++ [')']
  | fuel + 1, .frac r =>
    match r.num with
    | none => ['0']
    | some _ =>
      let funcs : Str → Str := fun text =>
        match r.fns with
        | none => text
        | some fns =>
          fns.foldl
            (fun text p =>
              if ¬ strHasSub p.1 text then text
              else strReplaceAll text p.1 (renderAux fuel (.fnDef p.2))) text
      let ns := funcs (expStr r.num)
      let ds := funcs (expStr r.den)
      if ds = ['1'] then ns
      else
        let denTerms := r.den.getD []
        let ds2 :=
          if denTerms.length = 1 ∧ denTerms.any (fun p => p.1 = ['0']) then ds
          else ['('] ++ ds ++ [')']
        if (r.num.getD []).length = 1 then ns ++ ['/'] ++ ds2
        else ['('] ++ ns ++ [')'] ++ ['/'] ++ ds2

/-- `terms.FnDef.String`. -/
def fnDefStrF (fuel : Nat) (fn : FnDef) : Str := renderAux fuel (.fnDef fn)

/-- `terms.Frac.String`. -/
def fracStrF (fuel : Nat) (r : Frac) : Str := renderAux fuel (.frac r)

/-- `terms.Ratio`. -/
def ratioE (e : Exp) : Frac :=
  let den := (e.getD []).foldl (fun den st => LCP den (denF st.2.fact)) []
  let fden := if den ≠ [] then NewExp [den] else NewExp [[D 1 1]]
  Frac.mk (MulE [e, fden]) fden none

/-- `terms.NewFrac`. -/
def newFrac (e : List Exp) : Frac :=
  match e with
  | [] => zeroFrac
  | [x] => ratioE x
  | x :: y :: rest =>
    Frac.mk (SumE ((x :: y :: rest).dropLast)) (((x :: y :: rest).getLast?).getD none) none

/-- Insert-or-replace under a string key, keeping keys sorted (the model
of writing to a Go map). -/
def upsert {α : Type} : List (Str × α) → Str → α → List (Str × α)
  | [], k, v => [(k, v)]
  | (k2, v2) :: rest, k, v =>
    if strLt k k2 then (k, v) :: (k2, v2) :: rest
    else if k = k2 then (k, v) :: rest
    else (k2, v2) :: upsert rest k v

def lookupA {α : Type} : List (Str × α) → Str → Option α
  | [], _ => none
  | (k2, v) :: rest, k => if k = k2 then some v else lookupA rest k

def removeA {α : Type} : List (Str × α) → Str → List (Str × α)
  | [], _ => []
  | (k2, v) :: rest, k => if k = k2 then rest else (k2, v) :: removeA rest k

/-- `_FN%dFN_`. -/
def fnTok (n : Nat) : Str := ['_', 'F', 'N'] ++ natToStr n ++ ['F', 'N', '_']

/-- `_tmp%d_`. -/
def tmpTok (n : Nat) : Str := ['_', 't', 'm', 'p'] ++ natToStr n ++ ['_']

/-- `_XXX%d`. -/
def subTok (n : Nat) : Str := ['_', 'X', 'X', 'X'] ++ natToStr n

/-- `terms.Frac.mergeFns`.  Go mutates the fraction passed as `b` in
place (`c = b` copies the pointer and the `c.Num = ...`/`c.Den = ...`
assignments write through it, as its own doc comment states); the first
component of the result is therefore both Go's return value `c` and the
post-state of the argument `b`. -/
def mergeFnsF (fuel : Nat) (f b : Frac) : Frac × Option (List (Str × FnDef)) :=
  match f.fns with
  | none => (b, b.fns)
  | some ffns =>
    match b.fns with
    | none => (b, some ffns)
    | some bfns =>
      let fd := ffns.foldl
        (fun (acc : List (Str × FnDef) × List (Str × Str)) p =>
          (upsert acc.1 p.1 p.2, upsert acc.2 (fnDefStrF fuel p.2) p.1)) ([], [])
      let dedupe := fd.2
      let st := bfns.foldl
        (fun (acc : List (Str × FnDef) × List (Str × Str) × Exp × Exp) p =>
          let (fns, temps, cNum, cDen) := acc
          let temp := tmpTok fns.length
          let final := fnTok fns.length
          let (temps2, fns2) :=
            match lookupA dedupe (fnDefStrF fuel p.2) with
            | some prev => (upsert temps temp prev, fns)
            | none => (upsert temps temp final, upsert fns final p.2)
          (fns2, temps2,
           SubstituteF fuel cNum [S p.1] (NewExp [[S temp]]),
           SubstituteF fuel cDen [S p.1] (NewExp [[S temp]])))
        (fd.1, [], b.num, b.den)
      let (fns, temps, cNum, cDen) := st
      let nd := temps.foldl
        (fun (nd : Exp × Exp) q =>
          (SubstituteF fuel nd.1 [S q.1] (NewExp [[S q.2]]),
           SubstituteF fuel nd.2 [S q.1] (NewExp [[S q.2]]))) (cNum, cDen)
      (Frac.mk nd.1 nd.2 b.fns, some fns)

/-- `terms.Frac.trimFns` (in place in Go; returns the post-state). -/
def trimFnsF (fuel : Nat) (f : Frac) : Frac :=
  match f.fns with
  | none => f
  | some [] => Frac.mk f.num f.den none
  | some fl =>
      let st := fl.foldl
        (fun (acc : List (Str × Str) × List (Str × Str) × List (Str × FnDef)) p =>
          let (dedupe, del, fns) := acc
          if ¬ (containsE f.num [S p.1] || containsE f.den [S p.1]) then acc
          else
            let s := fnDefStrF fuel p.2
            match lookupA dedupe s with
            | some x => (dedupe, upsert del p.1 x, fns)
            | none => (upsert dedupe s p.1, del, upsert fns p.1 p.2)) ([], [], [])
      let (dedupe, del, fns) := st
      if fl.length = dedupe.length then f
      else
        let nd := del.foldl
          (fun (nd : Exp × Exp) q =>
            if q.1 = q.2 then nd
            else (SubstituteF fuel nd.1 [S q.1] (NewExp [[S q.2]]),
                  SubstituteF fuel nd.2 [S q.1] (NewExp [[S q.2]])))
          (f.num, f.den)
        let ka := (List.range fns.length).foldl
          (fun (ka : List Str × List Str) i =>
            let tok := fnTok i
            if (lookupA fns tok).isSome then (ka.1 ++ [tok], ka.2)
            else (ka.1, ka.2 ++ [tok])) ([], [])
        let st2 := fns.foldl
          (fun (acc : List (Str × Str) × Nat × List Str) p =>
            let (del2, i, keep) := acc
            if keep.contains p.1 then acc
            else
              (upsert del2 p.1 ((ka.2.get? i).getD []), i + 1,
               keep ++ [(ka.2.get? i).getD []])) ([], 0, ka.1)
        let fin := st2.1.foldl
          (fun (acc : List (Str × FnDef) × Exp × Exp) q =>
            let (fns2, num, den) := acc
            match lookupA fns2 q.1 with
            | none => acc
            | some fr =>
              (upsert (removeA fns2 q.1) q.2 fr,
               SubstituteF fuel num [S q.1] (NewExp [[S q.2]]),
               SubstituteF fuel den [S q.1] (NewExp [[S q.2]]))) (fns, nd.1, nd.2)
        Frac.mk fin.2.1 fin.2.2 (some fin.1)

/-- `terms.Frac.Reduce` (in place in Go; returns the post-state). -/
def reduceF (fuel : Nat) (f : Frac) : Frac :=
  let f := trimFnsF fuel f
  let n := commonN [f.num]
  let invN := n⁻¹
  let d := commonN [f.den]
  let invD := d⁻¹
  let r := n * invD
  let pN := NewExp [[Iv r.num, R invN]]
  let pD := NewExp [[Iv (r.den : Int), R invD]]
  let fNum := MulE [f.num, pN]
  let fDen := MulE [f.den, pD]
  let t := commonT [fNum.getD [], fDen.getD []]
  let nd :=
    if t.fact ≠ [] then
      let inv := NewExp [invF t.fact]
      (MulE [fNum, inv], MulE [fDen, inv])
    else (fNum, fDen)
  let d1 := divideF fuel nd.1 nd.2
  let nd :=
    if d1.2.2 = none ∧ d1.2.1 = none then (d1.1, NewExp [[D 1 1]]) else nd
  let d2 := divideF fuel nd.2 nd.1
  let nd :=
    if d2.2.2 = none ∧ d2.2.1 = none then (NewExp [[D 1 1]], d2.1) else nd
  trimFnsF fuel (Frac.mk nd.1 nd.2 f.fns)

/-- `terms.Frac.Substituted`.  Go mutates the argument `c` through
`mergeFns` (see there); the third component returns `c`'s post-state so
that the frame claim can be stated. -/
def fracSubstitutedF (fuel : Nat) (f : Frac) (b : List Value) (c : Frac) :
    Frac × Bool × Frac :=
  let inv := invF b
  let symN : Str := ['_', 'n']
  let symD : Str := ['_', 'd']
  let e1 := NewExp [[S symN, Sp symD (-1)]]
  let e2 := NewExp [[Sp symN (-1), S symD]]
  let (num0, a0) := SubstitutedF fuel f.num b e1
  let (num, a1) := SubstitutedF fuel num0 inv e2
  let (den0, a2) := SubstitutedF fuel f.den b e1
  let (den, a3) := SubstitutedF fuel den0 inv e2
  if ¬ (a0 || a1 || a2 || a3) then (f, false, c)
  else
    let m := mergeFnsF fuel f c
    let c2 := m.1
    let fns := m.2
    let r1 := ratioE num
    let r2 := ratioE den
    let r := reduceF fuel (Frac.mk (MulE [r1.num, r2.den]) (MulE [r1.den, r2.num]) none)
    let n1 := SubstituteF fuel r.num [S symN] c2.num
    let n2 := SubstituteF fuel n1 [S symD] c2.den
    let dd1 := SubstituteF fuel r.den [S symN] c2.num
    let dd2 := SubstituteF fuel dd1 [S symD] c2.den
    (reduceF fuel (Frac.mk n2 dd2 fns), true, c2)

/-! ## package factor: parsing -/

/-- Membership of `allDigits`. -/
def isDigitCh (c : Char) : Bool := '0' ≤ c && c ≤ '9'

/-- Membership of `allLetters` after `strings.ToLower` (ASCII letters
and the underscore). -/
def isLetterish (c : Char) : Bool :=
  ('a' ≤ c.toLower && c.toLower ≤ 'z') || c = '_'

def skipSpaceAux : Str → Nat → Nat
  | [], _ => 0
  | c :: rest, i =>
    if c = ' ' || c = '\t' || c = '\n' || c = '\r' then skipSpaceAux rest (i + 1)
    else i

/-- `factor.skipSpace` (returns 0 when the whole string is spaces, as
the source does). -/
def skipSpace (s : Str) : Nat := skipSpaceAux s 0

/-- `factor.subParse`.  Returns the token, the number of characters
handled and the optional error, exactly as the source's cases fall
through. -/
def subParse (signOK : Bool) (s : Str) : Str × Nat × Option GoErr :=
  let base := skipSpace s
  if base = s.length then ([], 0, some .done)
  else
    match s.drop base with
    | [] => ([], 0, some .done)
    | c :: _ =>
      if c = '^' || c = '*' || c = '/' then ([c], base + 1, none)
      else if (c = '+' || c = '-') ∧ ¬ signOK then ([], base, some .done)
      else
        let sign : Str := if c = '+' || c = '-' then [c] else []
        let base2 :=
          if c = '+' || c = '-' then base + 1 + skipSpace (s.drop (base + 1)) else base
        let rest2 := s.drop base2
        match rest2 with
        | [] => if sign ≠ [] then (sign, base2, none) else ([], 0, some .done)
        | d :: tl =>
          if isDigitCh d then
            let digs := d :: tl.takeWhile isDigitCh
            (sign ++ digs, base2 + digs.length, none)
          else if sign ≠ [] then (sign, base2, none)
          else if isLetterish d then
            let tok := d :: tl.takeWhile (fun ch => isLetterish ch || isDigitCh ch)
            (tok, base2 + tok.length, none)
          else ([], 0, some .done)

/-- Parse an optionally signed run of decimal digits (`strconv.Atoi`
without the machine-word overflow). -/
def atoi (s : Str) : Option Int :=
  match s with
  | [] => none
  | '-' :: rest =>
    if rest ≠ [] ∧ rest.all isDigitCh then
      some (-(rest.foldl (fun n c => 10 * n + ((c.toNat - 48 : Nat) : Int)) 0))
    else none
  | '+' :: rest =>
    if rest ≠ [] ∧ rest.all isDigitCh then
      some (rest.foldl (fun n c => 10 * n + ((c.toNat - 48 : Nat) : Int)) 0)
    else none
  | rest =>
    if rest.all isDigitCh then
      some (rest.foldl (fun n c => 10 * n + ((c.toNat - 48 : Nat) : Int)) 0)
    else none

/-- The unsigned-digits case of `big.Rat.SetString` used by `Parse`
(the tokens reaching it are digit runs with an optional sign; a signed
token under division forms `"1/<signed>"`, which `SetString` rejects). -/
def digitsVal (s : Str) : Option Int :=
  if s ≠ [] ∧ s.all isDigitCh then
    some (s.foldl (fun n c => 10 * n + ((c.toNat - 48 : Nat) : Int)) 0)
  else none

/-- The `modifier` state of `factor.Parse`. -/
inductive PMode where
  | pnone
  | pmul
  | ppow
  | pdiv
deriving DecidableEq, Repr

/-- The scanning loop of `factor.Parse` (fuel ≥ the string length is
always sufficient: every step that recurses consumed a character). -/
def parseLoop : Nat → Str → Nat → PMode → Bool → List Value →
    List Value × Nat × Option GoErr
  | 0, _, _, _, _, _ => ([], 0, some .syn)
  | fuel + 1, s, i, modifier, signOK, vs =>
    if i < s.length then
      let (tok, d, err) := subParse signOK (s.drop i)
      match err with
      | some e => (Simplify vs, i, some e)
      | none =>
        match tok with
        | [] => ([], 0, some .syn)
        | c :: _ =>
          if isLetterish c then
            match modifier with
            | .ppow => ([], 0, some .syn)
            | .pnone => ([], 0, some .syn)
            | .pmul => parseLoop fuel s (i + d) .pnone false (vs ++ [S tok])
            | .pdiv => parseLoop fuel s (i + d) .pnone false (vs ++ [Sp tok (-1)])
          else if c = '+' || c = '-' || isDigitCh c then
            if tok = ['+'] || tok = ['-'] then
              if ¬ signOK then (Simplify vs, i, some .done)
              else parseLoop fuel s (i + d) modifier signOK
                (if tok = ['-'] then D (-1) 1 :: vs else vs)
            else
              match modifier with
              | .ppow =>
                match atoi tok, vs.getLast? with
                | none, _ => ([], 0, some .syn)
                | some _, none => ([], 0, some .syn)
                | some n, some last =>
                  let vs2 :=
                    match last.num with
                    | none => vs.dropLast ++ [{ last with pow := last.pow * n }]
                    | some z =>
                      let nn := n.natAbs
                      let numq : ℚ := (z.num : ℚ) ^ nn
                      let denq : ℚ := (z.den : ℚ) ^ nn
                      let q : ℚ := if n < 0 then numq⁻¹ * denq else denq⁻¹ * numq
                      vs.dropLast ++ [{ last with num := some q }]
                  parseLoop fuel s (i + d) .pnone false vs2
              | .pnone => ([], 0, some .syn)
              | .pmul =>
                match atoi tok with
                | none => ([], 0, some .syn)
                | some n => parseLoop fuel s (i + d) .pnone false (vs ++ [⟨some (n : ℚ), 0, []⟩])
              | .pdiv =>
                match digitsVal tok with
                | none => ([], 0, some .syn)
                | some n =>
                  parseLoop fuel s (i + d) .pnone false (vs ++ [⟨some ((n : ℚ))⁻¹, 0, []⟩])
          else
            if modifier ≠ .pnone then ([], 0, some .syn)
            else if c = '^' then parseLoop fuel s (i + d) .ppow true vs
            else if c = '*' then parseLoop fuel s (i + d) .pmul true vs
            else if c = '/' then parseLoop fuel s (i + d) .pdiv true vs
            else (Simplify vs, i, some .done)
    else
      if modifier ≠ .pnone then ([], 0, some .syn)
      else (Simplify vs, i, none)

/-- `factor.Parse`. -/
def parseV (fuel : Nat) (s : Str) : List Value × Nat × Option GoErr :=
  parseLoop fuel s 0 .pmul true []

/-! ## package terms: parsing -/

def trimRightST (s : Str) : Str :=
  (s.reverse.dropWhile (fun c => c = ' ' || c = '\t')).reverse

/-- The loop of `terms.ParseExp`. -/
def parseExpLoop : Nat → Str → Nat → Exp → Except GoErr Exp
  | 0, _, _, _ => .error .syn
  | fuel + 1, s, i, e =>
    if i < s.length then
      let (vs, d, err) := parseV (s.length + 1) (s.drop i)
      let bad : Bool :=
        match err with
        | some .syn => true
        | some .done => vs = []
        | some _ => true
        | none => false
      if bad then .error .syn
      else
        let i2 := i + d
        let e2 := addE e (NewExp [vs])
        if i2 ≠ s.length ∧ s.getD i2 ' ' = '+' then
          if i2 + 1 = s.length then .error .syn
          else parseExpLoop fuel s (i2 + 1) e2
        else parseExpLoop fuel s i2 e2
    else .ok e

/-- `terms.ParseExp`. -/
def parseExpF (fuel : Nat) (s : Str) : Except GoErr Exp :=
  let s := trimRightST s
  if s.length = 0 then .error .syn
  else parseExpLoop fuel s 0 (NewExp [])

/-- `strings.Fields`. -/
def fieldsAux : Str → Str → List Str
  | [], cur => if cur = [] then [] else [cur.reverse]
  | c :: rest, cur =>
    if c.isWhitespace then
      if cur = [] then fieldsAux rest [] else cur.reverse :: fieldsAux rest []
    else fieldsAux rest (c :: cur)

def fieldsOf (s : Str) : List Str := fieldsAux s []

/-- `factor.ValidSymbol` (the regular expression
`^[a-zA-Z][a-zA-Z0-9]*$`). -/
def validSymbol : Str → Bool
  | [] => false
  | c :: rest => c.isAlpha && rest.all (fun d => d.isAlpha || d.isDigit)

def leadUnderscore (s : Str) : Bool :=
  match s with
  | c :: _ => c = '_'
  | [] => false

/-- Split on a character (`strings.Split`). -/
def splitOnCh (c : Char) : Str → List Str
  | [] => [[]]
  | d :: rest =>
    let r := splitOnCh c rest
    if d = c then [] :: r
    else
      match r with
      | [] => [[d]]
      | x :: xs => (d :: x) :: xs

/-- Work items for the mutually recursive parsing functions
(`ParseFrac`, `parseFracInt`, its scanning loop, and its comma-list
loop), folded into one function that recurses structurally on fuel. -/
inductive PJob where
  | frac : Str → PJob
  | fracInt : Str → PJob
  | scan : Str → Nat → Int → Option Nat → List (Str × Frac) → List (Str × FnDef) → PJob
  | plist : List Str → PJob

inductive POut where
  | fr : Option Frac → Option (List Frac) → POut
  | scanned : Str → List (Str × Frac) → List (Str × FnDef) → POut
  | fracs : List Frac → POut

def parseAux : Nat → PJob → Except GoErr POut
  | 0, _ => .error .syn
  /- `terms.ParseFrac`: reject a leading reserved-prefix symbol. -/
  | fuel + 1, .frac text =>
    if leadUnderscore text then .error .badFirstChar
    else parseAux fuel (.fracInt text)
  /- The scanning loop of `terms.parseFracInt`: walk `text` tracking
  parenthesis depth, replacing each top-level `( ... )` group by a
  fresh token (a function token when a valid identifier immediately
  precedes the group, else a `_XXX%d` substitution symbol).  The
  string is spliced and the index adjusted exactly as in the source. -/
  | fuel + 1, .scan text i depth base subs fns =>
    if i < text.length then
      let c := text.getD i ' '
      if c = '(' then
        let base2 := if depth = 0 ∧ base = none then some i else base
        parseAux fuel (.scan text (i + 1) (depth + 1) base2 subs fns)
      else if c = ')' then
        let depth2 := depth - 1
        if depth2 = 0 then
          let b := base.getD 0
          let inner := (text.drop (b + 1)).take (i - b - 1)
          match parseAux fuel (.frac inner) with
          | .error e => .error e
          | .ok (.fr r2 a2) =>
            let fieldsL := fieldsOf (text.take b)
            if fieldsL ≠ [] ∧ validSymbol ((fieldsL.getLast?).getD []) then
              let name := (fieldsL.getLast?).getD []
              let fn := fnTok fns.length
              let fdef :=
                match a2 with
                | some as => FnDef.mk name as
                | none => FnDef.mk name [r2.getD zeroFrac]
              let left := strJoin [' '] fieldsL.dropLast
              let text2 := left ++ [' '] ++ fn ++ [' '] ++ text.drop (i + 1)
              parseAux fuel (.scan text2 (left.length + 1 + fn.length + 1) 0 none subs
                (fns ++ [(fn, fdef)]))
            else
              let sub := subTok subs.length
              let text2 := text.take b ++ [' '] ++ sub ++ [' '] ++ text.drop (i + 1)
              parseAux fuel (.scan text2 (b + sub.length) 0 none
                (subs ++ [(sub, r2.getD zeroFrac)]) fns)
          | .ok _ => .error .syn
        else if depth2 ≤ -1 then .error .parse
        else parseAux fuel (.scan text (i + 1) depth2 base subs fns)
      else parseAux fuel (.scan text (i + 1) depth base subs fns)
    else
      if depth ≠ 0 then .error .parse
      else .ok (.scanned text subs fns)
  /- The comma branch of `terms.parseFracInt`: parse every element,
  reject nested lists. -/
  | _ + 1, .plist [] => .ok (.fracs [])
  | fuel + 1, .plist (el :: rest) =>
    match parseAux fuel (.frac el) with
    | .error _ => .error .parse
    | .ok (.fr _ (some _)) => .error .parse
    | .ok (.fr r none) =>
      match parseAux fuel (.plist rest) with
      | .error e => .error e
      | .ok (.fracs rs) => .ok (.fracs (r.getD zeroFrac :: rs))
      | .ok _ => .error .syn
    | .ok _ => .error .syn
  /- `terms.parseFracInt`.  One fuel counter bounds both the scanning
  steps and the recursion depth; the top-level entry points are called
  with ample fuel for the concrete inputs of interest. -/
  | fuel + 1, .fracInt text =>
    match parseAux fuel (.scan text 0 0 none [] []) with
    | .error e => .error e
    | .ok (.scanned text2 subs fns) =>
      if text2.contains ',' then
        match parseAux fuel (.plist (splitOnCh ',' text2)) with
        | .error e => .error e
        | .ok (.fracs args) => .ok (.fr none (some args))
        | .ok _ => .error .syn
      else
        match parseExpF (text2.length + 2) text2 with
        | .error e => .error e
        | .ok e =>
          let e2 := subs.foldl
            (fun e p =>
              let n := p.1 ++ ['n']
              let d := p.1 ++ ['d']
              SubstituteF fuel
                (SubstituteF fuel e [S p.1] (NewExp [[S n, Sp d (-1)]]))
                [Sp p.1 (-1)] (NewExp [[Sp n (-1), S d]])) e
          let r := ratioE e2
          let r := match fns with
            | [] => r
            | _ => Frac.mk r.num r.den (some fns)
          let r := subs.foldl
            (fun (r : Frac) p =>
              let n := p.1 ++ ['n']
              let d := p.1 ++ ['d']
              let num := SubstituteF fuel
                (SubstituteF fuel r.num [S n] p.2.num) [S d] p.2.den
              let den := SubstituteF fuel
                (SubstituteF fuel r.den [S n] p.2.num) [S d] p.2.den
              Frac.mk num den r.fns) r
          .ok (.fr (some (reduceF fuel r)) none)
    | .ok _ => .error .syn

/-- `terms.ParseFrac` (and, through `PJob.fracInt`, `terms.parseFracInt`). -/
def parseFracF (fuel : Nat) (text : Str) : Except GoErr (Option Frac × Option (List Frac)) :=
  match parseAux fuel (.frac text) with
  | .error e => .error e
  | .ok (.fr r args) => .ok (r, args)
  | .ok _ => .error .syn

/-- Projection used to state results about `ParseFrac`: the canonical
rendering of a successful single-fraction parse. -/
def renderResult (r : Except GoErr (Option Frac × Option (List Frac))) : Option Str :=
  match r with
  | .ok (some f, none) => some (fracStrF 20 f)
  | _ => none

/-! ## Theorems -/

/-- C10: calling `Substituted` with an empty pattern list returns the
very same expression unchanged together with a `false` changed flag; the
rewriting loop is never entered. -/
theorem substituted_empty_pattern :
    ∀ (fuel : Nat) (e c : Exp), SubstitutedF fuel e [] c = (e, false) := by
  intro fuel e c
  rfl

attribute [local semireducible] Rat.add Rat.mul Rat.inv Rat.sub

set_option maxRecDepth 100000 in
set_option maxHeartbeats 8000000 in
/-- C9: `ParseFrac "a/(a+b) + b/(a-b)"` and
`ParseFrac "(a^2+b^2)/(a^2-b^2)"` both succeed with a single fraction,
and both fractions render to the same canonical string,
`(a^2+b^2)/(a^2-b^2)`. -/
theorem parse_frac_fixture :
    renderResult (parseFracF 100 ("a/(a+b) + b/(a-b)".toList)) =
      some ("(a^2+b^2)/(a^2-b^2)".toList) ∧
    renderResult (parseFracF 100 ("(a^2+b^2)/(a^2-b^2)".toList)) =
      some ("(a^2+b^2)/(a^2-b^2)".toList) := by
  decide

/-- C7 (counterexample): the claim "the boolean result is true exactly
when the expression consists of nothing but that constant term or is the
zero expression" is false: the allocated empty expression `NewExp()` is
the zero expression (`IsZero` holds), yet `AsNumber` reports `false`
(only the nil pointer reports `true`). -/
theorem as_number_counterexample :
    asNumber (NewExp []) = (0, false) ∧ IsZero (NewExp []) = true := by
  decide

/-- C7 (amended): `AsNumber` returns the first constant term's
coefficient when one is present ((0, flag) otherwise); the boolean is
true exactly when the receiver is the nil expression, or consists of
exactly one term and that term is constant.  The allocated empty zero
expression therefore reports `false`. -/
theorem as_number_amended :
    ∀ (e : Exp),
      (e = none → asNumber e = (0, true)) ∧
      (∀ l, e = some l → (∀ p ∈ l, p.2.fact ≠ []) → asNumber e = (0, false)) ∧
      (∀ l p, e = some l → l.find? (fun st => st.2.fact = []) = some p →
        asNumber e = (p.2.coeff, decide (l.length = 1))) ∧
      ((asNumber e).2 = true ↔ e = none ∨ ∃ p, e = some [p] ∧ p.2.fact = []) := by
  intro e
  refine ⟨fun h => by subst h; rfl, fun l hl hnone => ?_, fun l p hl hf => ?_, ?_⟩
  · subst hl
    have : l.find? (fun st => st.2.fact = []) = none := by
      apply List.find?_eq_none.mpr
      intro x hx
      simpa using hnone x hx
    simp [asNumber, this]
  · subst hl
    simp [asNumber, hf]
  · cases e with
    | none => simp [asNumber]
    | some l =>
      cases hf : l.find? (fun st => st.2.fact = []) with
      | none =>
        simp only [asNumber, hf]
        constructor
        · intro h
          exact absurd h (by simp)
        · rintro (h | ⟨p, hp, hfact⟩)
          · exact absurd h (by simp)
          · obtain rfl : l = [p] := by simpa using hp
            have := List.find?_eq_none.mp hf p (by simp)
            simp [hfact] at this
      | some p =>
        have hp := List.find?_some hf
        have hmem := List.mem_of_find?_eq_some hf
        simp only [decide_eq_true_eq] at hp
        simp only [asNumber, hf]
        constructor
        · intro h
          have hlen : l.length = 1 := by simpa using h
          obtain ⟨x, rfl⟩ := List.length_eq_one.mp hlen
          have hpx : p = x := by simpa using hmem
          subst hpx
          exact Or.inr ⟨p, rfl, hp⟩
        · rintro (h | ⟨q, hq, hfact⟩)
          · exact absurd h (by simp)
          · obtain rfl : l = [q] := by simpa using hq
            simp

/-- C7 (amended, witness): the amended theorem applied to the concrete
expression `5` (a single constant term). -/
theorem as_number_amended_witness :
    asNumber (some [(['0'], ⟨(5 : ℚ), []⟩)]) = (5, true) := by
  have h := (as_number_amended (some [(['0'], ⟨(5 : ℚ), []⟩)])).2.2.1
    [(['0'], ⟨(5 : ℚ), []⟩)] (['0'], ⟨(5 : ℚ), []⟩) rfl (by decide)
  simpa using h

/-- C4 (counterexample): the claim "returns a no-leading-term error
exactly when the expression has no symbolic terms" is false: the
expression `x^-1` has a symbolic (non-constant) term, yet `Leading`
returns the error (its scan only ever selects terms of positive
`Order`). -/
theorem leading_counterexample :
    leadingE (NewExp [[Sp ['x'] (-1)]]) = (⟨0, []⟩, some GoErr.done) ∧
    NewExp [[Sp ['x'] (-1)]] =
      some [(['x', '^', '-', '1'], ⟨1, [⟨none, -1, ['x']⟩]⟩)] := by
  decide

/-! ### Order facts about `strLt` -/

theorem strLt_irrefl (s : Str) : strLt s s = false := by
  induction s with
  | nil => rfl
  | cons c rest ih => simp [strLt, ih]

theorem strLt_trans : ∀ {a b c : Str}, strLt a b = true → strLt b c = true →
    strLt a c = true := by
  intro a
  induction a with
  | nil =>
    intro b c hab hbc
    cases b with
    | nil => simp [strLt] at hab
    | cons y ys =>
      cases c with
      | nil => simp [strLt] at hbc
      | cons z zs => simp [strLt]
  | cons x xs ih =>
    intro b c hab hbc
    cases b with
    | nil => simp [strLt] at hab
    | cons y ys =>
      cases c with
      | nil => simp [strLt] at hbc
      | cons z zs =>
        simp only [strLt] at hab hbc ⊢
        rcases lt_trichotomy x y with hxy | hxy | hxy
        · rcases lt_trichotomy y z with hyz | hyz | hyz
          · simp [lt_trans hxy hyz]
          · subst hyz; simp [hxy]
          · simp [hxy, not_lt_of_gt hxy, hyz, not_lt_of_gt hyz] at hab hbc ⊢
        · subst hxy
          rcases lt_trichotomy x z with hxz | hxz | hxz
          · simp [hxz]
          · subst hxz
            simp [lt_irrefl] at hab hbc ⊢
            exact ih hab hbc
          · simp [lt_irrefl, not_lt_of_gt hxz, hxz] at hbc
        · simp [not_lt_of_gt hxy, hxy] at hab
  
theorem strLt_conn : ∀ {a b : Str}, strLt a b = false → strLt b a = false → a = b := by
  intro a
  induction a with
  | nil =>
    intro b hab _
    cases b with
    | nil => rfl
    | cons y ys => simp [strLt] at hab
  | cons x xs ih =>
    intro b hab hba
    cases b with
    | nil => simp [strLt] at hba
    | cons y ys =>
      simp only [strLt] at hab hba
      rcases lt_trichotomy x y with hxy | hxy | hxy
      · simp [hxy] at hab
      · subst hxy
        simp only [lt_irrefl, if_false] at hab hba
        rw [ih hab hba]
      · simp [hxy, not_lt_of_gt hxy] at hba

theorem strLt_asymm {a b : Str} (h : strLt a b = true) : strLt b a = false := by
  by_contra hc
  have hba : strLt b a = true := by
    cases hcc : strLt b a with
    | false => exact absurd hcc hc
    | true => rfl
  have := strLt_trans h hba
  rw [strLt_irrefl] at this
  exact Bool.false_ne_true this

theorem strLt_false_trans {a b c : Str} (h1 : strLt a b = false)
    (h2 : strLt b c = false) : strLt a c = false := by
  cases hac : strLt a c with
  | false => rfl
  | true =>
    cases hba : strLt b a with
    | true =>
      rw [strLt_trans hba hac] at h2
      exact Bool.noConfusion h2
    | false =>
      have hab := strLt_conn h1 hba
      subst hab
      rw [hac] at h2
      exact Bool.noConfusion h2

theorem strLt_nil_false {s : Str} (h : strLt [] s = false) : s = [] := by
  cases s with
  | nil => rfl
  | cons c cs => simp [strLt] at h

/-! ### The scan of `Leading` -/

theorem lead_fold : ∀ (l : Terms) (n : Int) (ld : Str) (tm : Term),
    (l.foldl leadStep (n, ld, tm) = (n, ld, tm) ∨
      ∃ p ∈ l, l.foldl leadStep (n, ld, tm) = (orderOf p.2.fact, p.1, p.2)) ∧
    n ≤ (l.foldl leadStep (n, ld, tm)).1 ∧
    ((l.foldl leadStep (n, ld, tm)).1 = n →
      strLt ld (l.foldl leadStep (n, ld, tm)).2.1 = false) ∧
    (∀ p ∈ l, orderOf p.2.fact < (l.foldl leadStep (n, ld, tm)).1 ∨
      (orderOf p.2.fact = (l.foldl leadStep (n, ld, tm)).1 ∧
        strLt p.1 (l.foldl leadStep (n, ld, tm)).2.1 = false)) := by
  intro l
  induction l with
  | nil =>
    intro n ld tm
    exact ⟨Or.inl rfl, le_refl _, fun _ => strLt_irrefl _, by simp⟩
  | cons hd rest ih =>
    intro n ld tm
    obtain ⟨s, t⟩ := hd
    rw [List.foldl_cons]
    by_cases hgt : n > orderOf t.fact
    · have hstep : leadStep (n, ld, tm) (s, t) = (n, ld, tm) := by
        simp [leadStep, hgt]
      rw [hstep]
      obtain ⟨imem, ile, ild, iall⟩ := ih n ld tm
      refine ⟨?_, ile, ild, ?_⟩
      · rcases imem with h | ⟨p, hp, hr⟩
        · exact Or.inl h
        · exact Or.inr ⟨p, List.mem_cons_of_mem _ hp, hr⟩
      · intro p hp
        rcases List.mem_cons.mp hp with rfl | hp
        · exact Or.inl (lt_of_lt_of_le hgt ile)
        · exact iall p hp
    · by_cases hsk : n = orderOf t.fact ∧ strLt ld s = true
      · have hstep : leadStep (n, ld, tm) (s, t) = (n, ld, tm) := by
          simp [leadStep, hgt, hsk]
        rw [hstep]
        obtain ⟨imem, ile, ild, iall⟩ := ih n ld tm
        refine ⟨?_, ile, ild, ?_⟩
        · rcases imem with h | ⟨p, hp, hr⟩
          · exact Or.inl h
          · exact Or.inr ⟨p, List.mem_cons_of_mem _ hp, hr⟩
        · intro p hp
          rcases List.mem_cons.mp hp with rfl | hp
          · obtain ⟨hnm, hlds⟩ := hsk
            have hfix : orderOf ((s, t).2).fact = orderOf t.fact := rfl
            rcases lt_or_eq_of_le ile with hlt | heqr
            · exact Or.inl (by omega)
            · refine Or.inr ⟨by omega, ?_⟩
              have hl2 := ild heqr.symm
              show strLt s _ = false
              cases hc : strLt s ((rest.foldl leadStep (n, ld, tm)).2.1) with
              | false => rfl
              | true =>
                rw [strLt_trans hlds hc] at hl2
                exact Bool.noConfusion hl2
          · exact iall p hp
      · have hstep : leadStep (n, ld, tm) (s, t) = (orderOf t.fact, s, t) := by
          simp only [leadStep]
          rw [if_neg hgt, if_neg ?_]
          simpa using hsk
        rw [hstep]
        obtain ⟨imem, ile, ild, iall⟩ := ih (orderOf t.fact) s t
        have hnm : n ≤ orderOf t.fact := le_of_not_lt hgt
        refine ⟨?_, le_trans hnm ile, ?_, ?_⟩
        · rcases imem with h | ⟨p, hp, hr⟩
          · exact Or.inr ⟨(s, t), List.mem_cons_self _ _, h⟩
          · exact Or.inr ⟨p, List.mem_cons_of_mem _ hp, hr⟩
        · intro hreq
          have heqnm : n = orderOf t.fact := by omega
          have hlds : strLt ld s = false := by
            cases hc : strLt ld s with
            | false => rfl
            | true => exact absurd ⟨heqnm, hc⟩ hsk
          have hl2 := ild (by omega)
          exact strLt_false_trans hlds hl2
        · intro p hp
          rcases List.mem_cons.mp hp with rfl | hp
          · rcases lt_or_eq_of_le ile with hlt | heqr
            · exact Or.inl hlt
            · exact Or.inr ⟨heqr, ild heqr.symm⟩
          · exact iall p hp

/-- C4 (amended): over terms with nonempty signatures, `Leading` scans
for a term of maximal factor-list `Order`, breaking ties on equal
`Order` by the lexicographically smallest signature, and returns the
`factor.ErrDone` error exactly when no term has positive `Order` (not
merely when there are no symbolic terms: a symbolic term of
non-positive order also produces the error, see the counterexample). -/
theorem leading_amended :
    ∀ l : Terms, (∀ p ∈ l, p.1 ≠ ([] : Str)) →
      ((∀ p ∈ l, orderOf p.2.fact ≤ 0) →
        leadingE (some l) = (⟨0, []⟩, some GoErr.done)) ∧
      (∀ p0 ∈ l, 0 < orderOf p0.2.fact →
        ∃ s t, (s, t) ∈ l ∧ leadingE (some l) = (t, none) ∧
          (∀ p ∈ l, orderOf p.2.fact ≤ orderOf t.fact) ∧
          (∀ p ∈ l, orderOf p.2.fact = orderOf t.fact → strLt p.1 s = false)) := by
  intro l hkeys
  obtain ⟨imem, ile, ild, iall⟩ := lead_fold l 0 [] ⟨0, []⟩
  constructor
  · intro hnonpos
    have hr : l.foldl leadStep (0, [], ⟨0, []⟩) = (0, [], ⟨0, []⟩) := by
      rcases imem with h | ⟨p, hp, hrw⟩
      · exact h
      · exfalso
        have h1 : orderOf p.2.fact ≤ 0 := hnonpos p hp
        have h2 : (0 : Int) ≤ (l.foldl leadStep (0, [], ⟨0, []⟩)).1 := ile
        rw [hrw] at h2
        have h0 : orderOf p.2.fact = 0 := le_antisymm h1 h2
        have h3 := ild (by rw [hrw]; exact h0)
        rw [hrw] at h3
        exact hkeys p hp (strLt_nil_false h3)
    simp [leadingE, hr]
  · intro p0 hp0 hpos
    have hrpos : 0 < (l.foldl leadStep (0, [], ⟨0, []⟩)).1 := by
      rcases iall p0 hp0 with h | ⟨h, _⟩
      · omega
      · omega
    rcases imem with h | ⟨p, hp, hrw⟩
    · rw [h] at hrpos
      exact absurd hrpos (by norm_num)
    · refine ⟨p.1, p.2, by simpa using hp, ?_, ?_, ?_⟩
      · have hne : (l.foldl leadStep (0, [], ⟨0, []⟩)).1 ≠ 0 := by omega
        simp only [leadingE, Option.getD_some]
        rw [if_neg hne, hrw]
      · intro q hq
        rcases iall q hq with h2 | ⟨h2, _⟩
        · rw [hrw] at h2
          exact le_of_lt h2
        · rw [hrw] at h2
          exact le_of_eq h2
      · intro q hq hqe
        rcases iall q hq with h2 | ⟨_, h2⟩
        · rw [hrw] at h2
          simp only at h2
          omega
        · rw [hrw] at h2
          exact h2

/-- C4 (amended, witness): the amended theorem applied to the
single-term expression `x^-2`, whose only term has order −2. -/
theorem leading_amended_witness :
    leadingE (some [(['x', '^', '-', '2'], ⟨(1 : ℚ), [⟨none, -2, ['x']⟩]⟩)]) =
      (⟨0, []⟩, some GoErr.done) :=
  (leading_amended [(['x', '^', '-', '2'], ⟨(1 : ℚ), [⟨none, -2, ['x']⟩]⟩)]
    (by decide)).1 (by decide)

/-- C5 (counterexample): the claim "if the partition does not reduce to
exactly one placeholder power, Divide fails with a no-exact-division
error" is false.  For `ex = x^2 + x` and `a = x` the divisible
partition is `1 + _factor` (a constant term plus a placeholder power,
so not exactly one placeholder power), yet `Divide` succeeds, returning
quotient `x + 1` with no remainder and no error: the current code has
no such check and fails only when the partition is empty. -/
theorem divide_counterexample :
    leadingE (NewExp [[S ['x']]]) = (⟨1, [⟨none, 1, ['x']⟩]⟩, none) ∧
    expStr (partitionE
        (SubstituteF 30 (NewExp [[Sp ['x'] 2], [S ['x']]]) [⟨none, 1, ['x']⟩]
          (divideRest (NewExp [[S ['x']]]) ⟨1, [⟨none, 1, ['x']⟩]⟩))
        [S replSym]).1 = ("1+_factor".toList) ∧
    divideF 30 (NewExp [[Sp ['x'] 2], [S ['x']]]) (NewExp [[S ['x']]]) =
      (some [(['0'], ⟨1, []⟩), (['x'], ⟨1, [⟨none, 1, ['x']⟩]⟩)], none, none) := by
  decide

/-- C5 (amended): `Divide(ex, a)` substitutes the relation
`(_factor − rest-of-a)/coefficient` for `a`'s leading monomial
throughout `ex` and partitions on the placeholder.  It fails (with the
`factor.ErrDone` sentinel) exactly when `a` has no leading term or when
no term of the substituted expression contains the placeholder — there
is no check that the divisible partition reduces to exactly one
placeholder power.  Otherwise the quotient is the divisible partition
(each term already divided by one placeholder power) with `a`
substituted back in for the placeholder, and the partition's remainder
is returned as the remainder. -/
theorem divide_amended :
    ∀ (fuel : Nat) (ex a : Exp),
      (∀ er, (leadingE a).2 = some er → divideF fuel ex a = (none, none, some er)) ∧
      ((leadingE a).2 = none →
        ((partitionE (SubstituteF fuel ex (leadingE a).1.fact
            (divideRest a (leadingE a).1)) [S replSym]).1 = none →
          divideF fuel ex a = (none, none, some GoErr.done)) ∧
        (∀ x y, partitionE (SubstituteF fuel ex (leadingE a).1.fact
            (divideRest a (leadingE a).1)) [S replSym] = (some x, y) →
          divideF fuel ex a = (SubstituteF fuel (some x) [S replSym] a, y, none))) := by
  intro fuel ex a
  rcases hle : leadingE a with ⟨lead, err⟩
  cases err with
  | some er =>
    refine ⟨fun er2 h2 => ?_, fun hnone => ?_⟩
    · have h2b : some er = some er2 := h2
      injection h2b with h3
      subst h3
      simp [divideF, hle]
    · exact Option.noConfusion (show (some er : Option GoErr) = none from hnone)
  | none =>
    refine ⟨fun er2 h2 => ?_, fun _ => ⟨fun hnone => ?_, fun x y hpart => ?_⟩⟩
    · exact Option.noConfusion (show (none : Option GoErr) = some er2 from h2)
    · replace hnone : (partitionE (SubstituteF fuel ex lead.fact
          (divideRest a lead)) [S replSym]).1 = none := hnone
      rcases hp2 : partitionE (SubstituteF fuel ex lead.fact
          (divideRest a lead)) [S replSym] with ⟨xx, y⟩
      rw [hp2] at hnone
      have hxx : xx = none := hnone
      subst hxx
      simp [divideF, hle, hp2]
    · replace hpart : partitionE (SubstituteF fuel ex lead.fact
          (divideRest a lead)) [S replSym] = (some x, y) := hpart
      simp [divideF, hle, hpart]
/-- C5 (amended, witness): the amended theorem applied to
`Divide(x^2, x)`, which succeeds with quotient `x`. -/
theorem divide_amended_witness :
    divideF 20 (NewExp [[Sp ['x'] 2]]) (NewExp [[S ['x']]]) =
      (some [(['x'], ⟨1, [⟨none, 1, ['x']⟩]⟩)], none, none) := by
  have h2 := ((divide_amended 20 (NewExp [[Sp ['x'] 2]])
      (NewExp [[S ['x']]])).2 (by decide)).2
    [(replSym, ⟨1, [⟨none, 1, replSym⟩]⟩)] none (by decide)
  rw [h2]
  decide

/-- C6 (counterexample): the claim that no public combinator ever
mutates a fraction passed in by the caller is false.  `Frac.Substituted`
passes its argument `c` to `mergeFns`, which (as its own doc comment
says) re-expresses that fraction in the merged token namespace by
assigning through the shared pointer.  Here both fractions carry a
function table; the substitution is performed (`changed = true`) and the
post-state of the argument `c` has its numerator rewritten from the
token `_FN0FN_` to `_FN1FN_` — a different value than was passed in
(and one its own unchanged `Fns` table does not define). -/
theorem frac_substituted_mutates_arg :
    (fracSubstitutedF 40
        (Frac.mk (NewExp [[S ['y']]]) (NewExp [[D 1 1]])
          (some [(fnTok 0,
            FnDef.mk ['s'] [Frac.mk (NewExp [[S ['x']]]) (NewExp [[D 1 1]]) none])]))
        [S ['y']]
        (Frac.mk (NewExp [[S (fnTok 0)]]) (NewExp [[D 1 1]])
          (some [(fnTok 0,
            FnDef.mk ['t'] [Frac.mk (NewExp [[S ['x']]]) (NewExp [[D 1 1]]) none])]))).2.1
      = true ∧
    (fracSubstitutedF 40
        (Frac.mk (NewExp [[S ['y']]]) (NewExp [[D 1 1]])
          (some [(fnTok 0,
            FnDef.mk ['s'] [Frac.mk (NewExp [[S ['x']]]) (NewExp [[D 1 1]]) none])]))
        [S ['y']]
        (Frac.mk (NewExp [[S (fnTok 0)]]) (NewExp [[D 1 1]])
          (some [(fnTok 0,
            FnDef.mk ['t'] [Frac.mk (NewExp [[S ['x']]]) (NewExp [[D 1 1]]) none])]))).2.2.num
      = some [(fnTok 1, ⟨1, [⟨none, 1, fnTok 1⟩]⟩)] ∧
    (Frac.mk (NewExp [[S (fnTok 0)]]) (NewExp [[D 1 1]])
        (some [(fnTok 0,
          FnDef.mk ['t'] [Frac.mk (NewExp [[S ['x']]]) (NewExp [[D 1 1]]) none])])).num
      = some [(fnTok 0, ⟨1, [⟨none, 1, fnTok 0⟩]⟩)] ∧
    (fnTok 1 : Str) ≠ fnTok 0 := by
  refine ⟨by decide, by decide, by decide, by decide⟩

/-- C6 (amended): `mergeFns` leaves the fraction passed as its argument
unchanged whenever either side's function table is nil; in particular
`Frac.Substituted` and `Rearrange` only mutate their fraction argument
when both fractions carry function tables (the counterexample), and the
expression-level combinators never mutate their arguments. -/
theorem merge_fns_no_table_id :
    ∀ (fuel : Nat) (f b : Frac), f.fns = none ∨ b.fns = none →
      (mergeFnsF fuel f b).1 = b := by
  intro fuel f b h
  cases hf : f.fns with
  | none => simp [mergeFnsF, hf]
  | some ffns =>
    rcases h with h | hb
    · rw [h] at hf
      exact Option.noConfusion hf
    · simp [mergeFnsF, hf, hb]

/-- C6 (amended, witness): merging with a table-less fraction returns
the argument unchanged. -/
theorem merge_fns_no_table_id_witness :
    (mergeFnsF 5 zeroFrac zeroFrac).1 = zeroFrac :=
  merge_fns_no_table_id 5 zeroFrac zeroFrac (Or.inl rfl)

/-! ### Canonical form of `Simplify` (shared by several claims) -/

/-- A well-formed factor in the sense of the spec's data model: a
nonzero rational number, or a symbol with a nonempty name. -/
def GoodVal (v : Value) : Prop :=
  (∀ q, v.num = some q → q ≠ 0) ∧ (v.num = none → v.sym ≠ [])

/-- Specification-side coefficient: the product of the numeric factors. -/
def specCoeff (vs : List Value) : ℚ := (vs.filterMap (fun v => v.num)).prod

/-- Specification-side exponent sum of the symbol `s` in a factor list. -/
def sumPow (s : Str) (l : List Value) : Int :=
  ((l.filter (fun v => v.num = none ∧ v.sym = s)).map (fun v => v.pow)).sum

/-- A canonical symbolic entry: non-numeric, nonzero power, named. -/
def SymVal (v : Value) : Prop := v.num = none ∧ v.pow ≠ 0 ∧ v.sym ≠ []

theorem numProd_eq_specCoeff (vs : List Value) : numProd vs = specCoeff vs := by
  suffices h : ∀ (l : List Value) (a : ℚ),
      l.foldl (fun n v => match v.num with | some q => n * q | none => n) a =
        a * (l.filterMap (fun v => v.num)).prod by
    simpa [numProd, specCoeff] using h vs 1
  intro l
  induction l with
  | nil => intro a; simp
  | cons v rest ih =>
    intro a
    cases hv : v.num with
    | none => simp [List.foldl_cons, hv, ih]
    | some q => simp [List.foldl_cons, hv, ih, mul_assoc]

theorem specCoeff_ne_zero {vs : List Value} (h : ∀ v ∈ vs, GoodVal v) :
    specCoeff vs ≠ 0 := by
  apply List.prod_ne_zero
  intro hz
  obtain ⟨v, hv, hq⟩ := List.mem_filterMap.mp hz
  exact (h v hv).1 0 hq rfl

theorem no_zero_num {vs : List Value} (h : ∀ v ∈ vs, GoodVal v) :
    vs.any (fun v => v.num = some 0) = false := by
  rw [Bool.eq_false_iff]
  intro hany
  obtain ⟨v, hv, h0⟩ := List.any_eq_true.mp hany
  simp only [decide_eq_true_eq] at h0
  exact (h v (by simpa using hv)).1 0 h0 rfl

theorem sumPow_cons (t : Str) (v : Value) (l : List Value) :
    sumPow t (v :: l) =
      (if v.num = none ∧ v.sym = t then v.pow else 0) + sumPow t l := by
  by_cases hv : v.num = none ∧ v.sym = t
  · simp [sumPow, List.filter_cons, hv]
  · simp [sumPow, List.filter_cons, hv]

theorem sumPow_reverse (t : Str) (l : List Value) :
    sumPow t l.reverse = sumPow t l := by
  unfold sumPow
  rw [List.filter_reverse, List.map_reverse, List.sum_reverse]

theorem sumPow_perm (t : Str) {l₁ l₂ : List Value} (h : l₁.Perm l₂) :
    sumPow t l₁ = sumPow t l₂ := by
  unfold sumPow
  exact List.Perm.sum_eq (List.Perm.map (fun v => v.pow) (h.filter _))

theorem sumPow_symsOf (t : Str) (vs : List Value) :
    sumPow t (symsOf vs) = sumPow t vs := by
  induction vs with
  | nil => rfl
  | cons v rest ih =>
    rw [sumPow_cons]
    by_cases hv : v.num = none
    · have hs : symsOf (v :: rest) = v :: symsOf rest := by
        simp [symsOf, List.filter_cons, hv]
      rw [hs, sumPow_cons, ih]
    · have hs : symsOf (v :: rest) = symsOf rest := by
        simp [symsOf, List.filter_cons, hv]
      rw [hs, ih]
      have hno : ¬(v.num = none ∧ v.sym = t) := fun hc => hv hc.1
      simp [hno]

theorem valLe_iff {x y : Value} :
    valLe x y ↔ strLt x.sym y.sym = true ∨ (x.sym = y.sym ∧ y.pow ≤ x.pow) := by
  simp [valLe, valLeB, Bool.or_eq_true, Bool.and_eq_true, decide_eq_true_eq]

instance : IsTotal Value valLe := by
  constructor
  intro x y
  cases hxy : strLt x.sym y.sym with
  | true => exact Or.inl (valLe_iff.mpr (Or.inl hxy))
  | false =>
    cases hyx : strLt y.sym x.sym with
    | true => exact Or.inr (valLe_iff.mpr (Or.inl hyx))
    | false =>
      have he := strLt_conn hxy hyx
      rcases Int.le_total y.pow x.pow with h | h
      · exact Or.inl (valLe_iff.mpr (Or.inr ⟨he, h⟩))
      · exact Or.inr (valLe_iff.mpr (Or.inr ⟨he.symm, h⟩))

instance : IsTrans Value valLe := by
  constructor
  intro a b c hab hbc
  rcases valLe_iff.mp hab with h1 | ⟨h1, h1p⟩ <;>
    rcases valLe_iff.mp hbc with h2 | ⟨h2, h2p⟩
  · exact valLe_iff.mpr (Or.inl (strLt_trans h1 h2))
  · exact valLe_iff.mpr (Or.inl (h2 ▸ h1))
  · exact valLe_iff.mpr (Or.inl (h1 ▸ h2))
  · exact valLe_iff.mpr (Or.inr ⟨h1.trans h2, le_trans h2p h1p⟩)

theorem sorted_rest_not_lt {s : Value} {rest : List Value}
    (hs : List.Sorted valLe (s :: rest)) :
    ∀ u ∈ rest, strLt u.sym s.sym = false := by
  intro u hu
  have h := List.rel_of_sorted_cons hs u hu
  rcases valLe_iff.mp h with h1 | ⟨h1, _⟩
  · exact strLt_asymm h1
  · rw [h1, strLt_irrefl]

theorem mergeRev_spec :
    ∀ (syms acc : List Value) (bot : Value),
      (∀ v ∈ syms, SymVal v) →
      (∀ v ∈ acc, SymVal v) →
      bot.sym = [] →
      List.Sorted valLe syms →
      acc.Chain' (fun x y => strLt y.sym x.sym = true) →
      (∀ u ∈ syms, ∀ h, acc.head? = some h → strLt u.sym h.sym = false) →
      ∃ out, mergeRev (acc ++ [bot]) syms = out ++ [bot] ∧
        (∀ v ∈ out, SymVal v) ∧
        out.Chain' (fun x y => strLt y.sym x.sym = true) ∧
        (∀ t, sumPow t out = sumPow t acc + sumPow t syms) := by
  intro syms
  induction syms with
  | nil =>
    intro acc bot _ hacc _ _ hchain _
    refine ⟨acc, by simp [mergeRev], hacc, hchain, ?_⟩
    intro t
    simp [sumPow]
  | cons s rest ih =>
    intro acc bot hsyms hacc hbot hsort hchain hbound
    have hssym : SymVal s := hsyms s (List.mem_cons_self _ _)
    have hsyms' : ∀ v ∈ rest, SymVal v := fun v hv =>
      hsyms v (List.mem_cons_of_mem _ hv)
    have hsort' : List.Sorted valLe rest := hsort.of_cons
    have hrest_not_lt := sorted_rest_not_lt hsort
    cases acc with
    | nil =>
      have hne : bot.sym ≠ s.sym := by
        rw [hbot]
        exact fun h => hssym.2.2 h.symm
      have hstep : mergeRev (([] : List Value) ++ [bot]) (s :: rest) =
          mergeRev ([s] ++ [bot]) rest := by
        simp [mergeRev, hne]
      obtain ⟨out, hout, hsv, hch, hsum⟩ := ih [s] bot hsyms'
        (by intro v hv; rw [List.mem_singleton] at hv; rw [hv]; exact hssym)
        hbot hsort' (List.chain'_singleton s)
        (by
          intro u hu h hh
          simp only [List.head?_cons, Option.some.injEq] at hh
          rw [← hh]
          exact hrest_not_lt u hu)
      refine ⟨out, by rw [hstep, hout], hsv, hch, ?_⟩
      intro t
      rw [hsum t, sumPow_cons, sumPow_cons]
      simp [sumPow]
    | cons a acctail =>
      have hasym : SymVal a := hacc a (List.mem_cons_self _ _)
      have hacc' : ∀ v ∈ acctail, SymVal v := fun v hv =>
        hacc v (List.mem_cons_of_mem _ hv)
      have hsa_false : strLt s.sym a.sym = false :=
        hbound s (List.mem_cons_self _ _) a rfl
      by_cases hna : a.sym = s.sym
      · -- merge branch
        have hcond : ¬ (a.sym ≠ s.sym) := fun h => h hna
        by_cases hp : a.pow + s.pow = 0
        · -- drop
          have hstep : mergeRev ((a :: acctail) ++ [bot]) (s :: rest) =
              mergeRev (acctail ++ [bot]) rest := by
            simp [mergeRev, hcond, hp]
          obtain ⟨out, hout, hsv, hch, hsum⟩ := ih acctail bot hsyms' hacc'
            hbot hsort' hchain.tail
            (by
              intro u hu h hh
              have hrel := (List.chain'_cons'.mp hchain).1 h hh
              have hu_s := hrest_not_lt u hu
              rw [hna] at hrel
              cases hc : strLt u.sym h.sym with
              | false => rfl
              | true =>
                rw [strLt_trans hc hrel] at hu_s
                exact Bool.noConfusion hu_s)
          refine ⟨out, by rw [hstep, hout], hsv, hch, ?_⟩
          intro t
          rw [hsum t, sumPow_cons, sumPow_cons]
          by_cases ht : t = s.sym
          · have h1 : a.num = none ∧ a.sym = t := ⟨hasym.1, by rw [hna, ht]⟩
            have h2 : s.num = none ∧ s.sym = t := ⟨hssym.1, ht.symm⟩
            simp only [h1, h2, and_self, if_true, if_pos]
            omega
          · have h1 : ¬ (a.num = none ∧ a.sym = t) := by
              rintro ⟨-, hh⟩
              exact ht (by rw [← hh, hna])
            have h2 : ¬ (s.num = none ∧ s.sym = t) := by
              rintro ⟨-, hh⟩
              exact ht hh.symm
            simp only [h1, h2, if_neg, if_false]
            omega
        · -- update in place
          have hstep : mergeRev ((a :: acctail) ++ [bot]) (s :: rest) =
              mergeRev (({ a with pow := a.pow + s.pow } :: acctail) ++ [bot]) rest := by
            simp [mergeRev, hcond, hp]
          have hsym_eq : ({ a with pow := a.pow + s.pow } : Value).sym = a.sym := rfl
          obtain ⟨out, hout, hsv, hch, hsum⟩ := ih
            ({ a with pow := a.pow + s.pow } :: acctail) bot hsyms'
            (by
              intro v hv
              rcases List.mem_cons.mp hv with rfl | hv
              · exact ⟨hasym.1, hp, hasym.2.2⟩
              · exact hacc' v hv)
            hbot hsort'
            (by
              rw [List.chain'_cons']
              refine ⟨?_, hchain.tail⟩
              intro y hy
              exact (List.chain'_cons'.mp hchain).1 y hy)
            (by
              intro u hu h hh
              simp only [List.head?_cons, Option.some.injEq] at hh
              rw [← hh, hsym_eq, hna]
              exact hrest_not_lt u hu)
          refine ⟨out, by rw [hstep, hout], hsv, hch, ?_⟩
          intro t
          rw [hsum t, sumPow_cons, sumPow_cons, sumPow_cons]
          by_cases ht : t = s.sym
          · have h1 : a.num = none ∧ a.sym = t := ⟨hasym.1, by rw [hna, ht]⟩
            have h1b : ({ a with pow := a.pow + s.pow } : Value).num = none ∧
                ({ a with pow := a.pow + s.pow } : Value).sym = t := h1
            have h2 : s.num = none ∧ s.sym = t := ⟨hssym.1, ht.symm⟩
            simp only [h1, h1b, h2, and_self, if_true, if_pos]
            omega
          · have h1 : ¬ (a.num = none ∧ a.sym = t) := by
              rintro ⟨-, hh⟩
              exact ht (by rw [← hh, hna])
            have h1b : ¬ (({ a with pow := a.pow + s.pow } : Value).num = none ∧
                ({ a with pow := a.pow + s.pow } : Value).sym = t) := h1
            have h2 : ¬ (s.num = none ∧ s.sym = t) := by
              rintro ⟨-, hh⟩
              exact ht hh.symm
            simp only [h1, h1b, h2, if_neg, if_false]
            omega
      · -- append branch
        have has_true : strLt a.sym s.sym = true := by
          cases hc : strLt a.sym s.sym with
          | true => rfl
          | false => exact absurd (strLt_conn hc hsa_false) hna
        have hstep : mergeRev ((a :: acctail) ++ [bot]) (s :: rest) =
            mergeRev ((s :: a :: acctail) ++ [bot]) rest := by
          have hcond : a.sym ≠ s.sym := hna
          simp [mergeRev, hcond]
        obtain ⟨out, hout, hsv, hch, hsum⟩ := ih (s :: a :: acctail) bot hsyms'
          (by
            intro v hv
            rcases List.mem_cons.mp hv with rfl | hv
            · exact hssym
            · exact hacc v hv)
          hbot hsort'
          (by
            rw [List.chain'_cons']
            refine ⟨fun y hy => ?_, hchain⟩
            have hay : a = y := by simpa using hy
            rw [← hay]
            exact has_true)
          (by
            intro u hu h hh
            simp only [List.head?_cons, Option.some.injEq] at hh
            rw [← hh]
            exact hrest_not_lt u hu)
        refine ⟨out, by rw [hstep, hout], hsv, hch, ?_⟩
        intro t
        rw [hsum t, sumPow_cons, sumPow_cons, sumPow_cons]
        omega

/-- C3: `Simplify` partitions the input into numeric and symbolic
factors, multiplies all numeric factors into one rational coefficient,
returns the empty list when any numeric factor is exactly zero, sorts
the symbolic factors by name, merges equal names by summing their
exponents (dropping any whose exponents reach zero), and returns the
coefficient followed by the sorted nonzero symbolic factors;
`Simplify []` is the empty list.  Symbolic inputs are the spec's data
model: named symbols with nonzero exponents (a zero-exponent symbol is
never constructed by the spec's model). -/
theorem simplify_canonical :
    ∀ vs : List Value,
      (vs = [] → Simplify vs = []) ∧
      ((∃ v ∈ vs, v.num = some 0) → Simplify vs = []) ∧
      (vs ≠ [] → (∀ v ∈ vs, GoodVal v ∧ (v.num = none → v.pow ≠ 0)) →
        ∃ tail, Simplify vs = R (specCoeff vs) :: tail ∧
          (∀ v ∈ tail, v.num = none ∧ v.pow ≠ 0 ∧ v.sym ≠ []) ∧
          tail.Chain' (fun x y => strLt x.sym y.sym = true) ∧
          (∀ t : Str, sumPow t tail = sumPow t vs)) := by
  intro vs
  refine ⟨fun h => by rw [Simplify, if_pos h], fun hz => ?_, fun hne hgood => ?_⟩
  · obtain ⟨v, hv, h0⟩ := hz
    rw [Simplify]
    by_cases hemp : vs = []
    · rw [if_pos hemp]
    · rw [if_neg hemp, if_pos ?_]
      simp only [List.any_eq_true, decide_eq_true_eq]
      exact ⟨v, hv, h0⟩
  · have hg : ∀ v ∈ vs, GoodVal v := fun v hv => (hgood v hv).1
    have hzf : ¬ (vs.any (fun v => v.num = some 0) = true) := by
      rw [no_zero_num hg]
      exact Bool.false_ne_true
    have hsymsGood : ∀ v ∈ sortVals (symsOf vs), SymVal v := by
      intro v hv
      have hv2 : v ∈ symsOf vs :=
        (List.perm_insertionSort valLe (symsOf vs)).mem_iff.mp hv
      have hv3 : v ∈ vs ∧ v.num = none := by
        simpa [symsOf] using List.mem_filter.mp hv2
      exact ⟨hv3.2, (hgood v hv3.1).2 hv3.2, ((hgood v hv3.1).1).2 hv3.2⟩
    have hsorted : List.Sorted valLe (sortVals (symsOf vs)) :=
      List.sorted_insertionSort valLe (symsOf vs)
    obtain ⟨out, hout, hsv, hch, hsum⟩ := mergeRev_spec (sortVals (symsOf vs))
      [] (R (numProd vs)) hsymsGood (by simp) rfl hsorted List.chain'_nil
      (by simp)
    have hout2 : mergeRev [R (numProd vs)] (sortVals (symsOf vs)) =
        out ++ [R (numProd vs)] := hout
    have hfinal : Simplify vs = R (specCoeff vs) :: out.reverse := by
      rw [Simplify, if_neg hne, if_neg hzf, hout2, numProd_eq_specCoeff]
      simp
    refine ⟨out.reverse, hfinal, ?_, ?_, ?_⟩
    · intro v hv
      exact hsv v (List.mem_reverse.mp hv)
    · exact List.chain'_reverse.mpr hch
    · intro t
      rw [sumPow_reverse, hsum t]
      have h0 : sumPow t ([] : List Value) = 0 := rfl
      rw [h0, zero_add]
      have hp : sumPow t (List.insertionSort valLe (symsOf vs)) = sumPow t (symsOf vs) :=
        sumPow_perm t (List.perm_insertionSort valLe (symsOf vs))
      exact hp.trans (sumPow_symsOf t vs)

/-- Decidable sufficient condition for the well-formedness hypotheses
of the canonical-form theorem. -/
def goodValB (v : Value) : Bool :=
  match v.num with
  | some q => q ≠ 0
  | none => v.sym ≠ [] ∧ v.pow ≠ 0

theorem goodValB_spec (v : Value) (h : goodValB v = true) :
    GoodVal v ∧ (v.num = none → v.pow ≠ 0) := by
  unfold goodValB at h
  cases hn : v.num with
  | some q =>
    rw [hn] at h
    simp only [decide_eq_true_eq] at h
    refine ⟨⟨fun q2 hq2 => ?_, fun hc => ?_⟩, fun hc => ?_⟩
    · rw [hn] at hq2
      injection hq2 with hh
      rw [← hh]
      exact h
    · rw [hn] at hc
      exact Option.noConfusion hc
    · exact Option.noConfusion hc
  | none =>
    rw [hn] at h
    simp only [Bool.and_eq_true, decide_eq_true_eq] at h
    refine ⟨⟨fun q2 hq2 => ?_, fun _ => h.1⟩, fun _ => h.2⟩
    rw [hn] at hq2
    exact Option.noConfusion hq2

/-- C3 (witness): the canonical-form theorem applied to the concrete
product `3 * b^2 * a * b^-1` (one numeric and three symbolic factors). -/
theorem simplify_canonical_witness :
    Simplify [Iv 3, Sp ['b'] 2, S ['a'], Sp ['b'] (-1)] =
      [R 3, ⟨none, 1, ['a']⟩, ⟨none, 1, ['b']⟩] ∧
    specCoeff [Iv 3, Sp ['b'] 2, S ['a'], Sp ['b'] (-1)] = 3 ∧
    sumPow ['b'] [Iv 3, Sp ['b'] 2, S ['a'], Sp ['b'] (-1)] = 1 := by
  have hgood : ∀ v ∈ [Iv 3, Sp ['b'] 2, S ['a'], Sp ['b'] (-1)],
      GoodVal v ∧ (v.num = none → v.pow ≠ 0) := by
    intro v hv
    refine goodValB_spec v ?_
    have hall : ([Iv 3, Sp ['b'] 2, S ['a'], Sp ['b'] (-1)]).all goodValB = true := by
      decide
    exact List.all_eq_true.mp hall v hv
  have h := (simplify_canonical [Iv 3, Sp ['b'] 2, S ['a'], Sp ['b'] (-1)]).2.2
    (by decide) hgood
  refine ⟨?_, by decide, by decide⟩
  obtain ⟨tail, heq, -, -, -⟩ := h
  have hc : specCoeff [Iv 3, Sp ['b'] 2, S ['a'], Sp ['b'] (-1)] = 3 := by decide
  have hs : Simplify [Iv 3, Sp ['b'] 2, S ['a'], Sp ['b'] (-1)] =
      [R 3, ⟨none, 1, ['a']⟩, ⟨none, 1, ['b']⟩] := by decide
  have heq2 := heq
  rw [hs, hc] at heq2
  injection heq2 with h1 h2

/-! ### The zero-coefficient invariant -/

/-- The spec invariant on a term map: no entry carries coefficient 0. -/
abbrev NoZeroT (l : Terms) : Prop := ∀ st ∈ l, st.2.coeff ≠ 0

/-- The invariant on expressions; the nil expression holds it trivially. -/
abbrev NoZeroE (e : Exp) : Prop := ∀ st ∈ e.getD [], st.2.coeff ≠ 0

theorem mergeRev_num :
    ∀ (syms : List Value), (∀ v ∈ syms, v.num = none) →
      ∀ (res : List Value), ∀ v ∈ mergeRev res syms,
        v.num = none ∨ ∃ w ∈ res, v.num = w.num := by
  intro syms
  induction syms with
  | nil =>
    intro _ res v hv
    rw [show mergeRev res [] = res from by cases res <;> rfl] at hv
    exact Or.inr ⟨v, hv, rfl⟩
  | cons s rest ih =>
    intro hall res v hv
    have hs : s.num = none := hall s (List.mem_cons_self _ _)
    have hrest : ∀ u ∈ rest, u.num = none := fun u hu =>
      hall u (List.mem_cons_of_mem _ hu)
    cases res with
    | nil =>
      rw [show mergeRev [] (s :: rest) = mergeRev [s] rest from by simp [mergeRev]] at hv
      rcases ih hrest [s] v hv with h | ⟨w, hw, hnum⟩
      · exact Or.inl h
      · rw [List.mem_singleton] at hw
        exact Or.inl (by rw [hnum, hw, hs])
    | cons last res' =>
      by_cases hsym : last.sym ≠ s.sym
      · rw [show mergeRev (last :: res') (s :: rest) =
            mergeRev (s :: last :: res') rest from by simp [mergeRev, hsym]] at hv
        rcases ih hrest _ v hv with h | ⟨w, hw, hnum⟩
        · exact Or.inl h
        · rcases List.mem_cons.mp hw with rfl | hw'
          · exact Or.inl (hnum.trans hs)
          · exact Or.inr ⟨w, hw', hnum⟩
      · have hcond : ¬ (last.sym ≠ s.sym) := hsym
        by_cases hp : last.pow + s.pow = 0
        · rw [show mergeRev (last :: res') (s :: rest) =
              mergeRev res' rest from by simp [mergeRev, hcond, hp]] at hv
          rcases ih hrest res' v hv with h | ⟨w, hw, hnum⟩
          · exact Or.inl h
          · exact Or.inr ⟨w, List.mem_cons_of_mem _ hw, hnum⟩
        · rw [show mergeRev (last :: res') (s :: rest) =
              mergeRev ({ last with pow := last.pow + s.pow } :: res') rest from by
                simp [mergeRev, hcond, hp]] at hv
          rcases ih hrest _ v hv with h | ⟨w, hw, hnum⟩
          · exact Or.inl h
          · rcases List.mem_cons.mp hw with rfl | hw'
            · exact Or.inr ⟨last, List.mem_cons_self _ _, by simpa using hnum⟩
            · exact Or.inr ⟨w, List.mem_cons_of_mem _ hw', hnum⟩

theorem numProd_ne_zero {vs : List Value}
    (h : vs.any (fun v => v.num = some 0) = false) : numProd vs ≠ 0 := by
  rw [numProd_eq_specCoeff]
  apply List.prod_ne_zero
  intro hz
  obtain ⟨v, hv, hq⟩ := List.mem_filterMap.mp hz
  simp only [List.any_eq_false, decide_eq_true_eq] at h
  exact h v hv hq

theorem segment_coeff_ne_zero {vs : List Value} {n : ℚ} {fs : List Value} {tag : Str}
    (h : Segment vs = some (n, fs, tag)) : n ≠ 0 := by
  unfold Segment at h
  cases hsimp : Simplify vs with
  | nil => rw [hsimp] at h; exact Option.noConfusion h
  | cons x rest =>
    rw [hsimp] at h
    have h2 : (match x.num with
        | none => none
        | some q => some (q, rest, prodStr rest)) = some (n, fs, tag) := h
    cases hx : x.num with
    | none => rw [hx] at h2; exact Option.noConfusion h2
    | some q =>
      rw [hx] at h2
      injection h2 with h'
      have hq : q = n := congrArg (fun p => p.1) h'
      rw [← hq]
      by_cases hvs : vs = []
      · rw [hvs] at hsimp
        simp [Simplify] at hsimp
      · by_cases hany : vs.any (fun v => v.num = some 0) = true
        · rw [show Simplify vs = [] from by simp [Simplify, hvs, hany]] at hsimp
          exact List.noConfusion hsimp
        · rw [Bool.not_eq_true] at hany
          have hmr : Simplify vs =
              (mergeRev [R (numProd vs)] (sortVals (symsOf vs))).reverse := by
            simp [Simplify, hvs, hany]
          have hxmem : x ∈ mergeRev [R (numProd vs)] (sortVals (symsOf vs)) := by
            rw [← List.mem_reverse, ← hmr, hsimp]
            exact List.mem_cons_self _ _
          have hnone : ∀ v ∈ sortVals (symsOf vs), v.num = none := by
            intro v hv
            have hv2 : v ∈ symsOf vs :=
              (List.perm_insertionSort valLe (symsOf vs)).mem_iff.mp hv
            have := List.mem_filter.mp hv2
            simpa using this.2
          rcases mergeRev_num _ hnone _ x hxmem with h0 | ⟨w, hw, hnum⟩
          · rw [h0] at hx
            exact Option.noConfusion hx
          · rw [List.mem_singleton] at hw
            rw [hw] at hnum
            rw [hnum] at hx
            have hqn : q = numProd vs := by
              simpa [R] using hx.symm
            rw [hqn]
            exact numProd_ne_zero hany

theorem insertT_no_zero : ∀ (l : Terms) (n : ℚ) (fs : List Value) (s : Str),
    NoZeroT l → n ≠ 0 → NoZeroT (insertT l n fs s) := by
  intro l
  induction l with
  | nil =>
    intro n fs s _ hn st hst
    rw [show insertT [] n fs s = [(s, ⟨n, fs⟩)] from rfl, List.mem_singleton] at hst
    rw [hst]
    exact hn
  | cons kt rest ih =>
    intro n fs s hl hn st hst
    obtain ⟨k, t⟩ := kt
    by_cases h1 : strLt s k = true
    · rw [show insertT ((k, t) :: rest) n fs s = (s, ⟨n, fs⟩) :: (k, t) :: rest from by
        simp [insertT, h1]] at hst
      rcases List.mem_cons.mp hst with rfl | h2
      · exact hn
      · exact hl st h2
    · rw [Bool.not_eq_true] at h1
      by_cases h2 : s = k
      · by_cases h3 : n + t.coeff = 0
        · rw [show insertT ((k, t) :: rest) n fs s = rest from by
            simp [insertT, strLt_irrefl, h2, h3]] at hst
          exact hl st (List.mem_cons_of_mem _ hst)
        · rw [show insertT ((k, t) :: rest) n fs s =
              (k, ⟨n + t.coeff, t.fact⟩) :: rest from by
            simp [insertT, strLt_irrefl, h2, h3]] at hst
          rcases List.mem_cons.mp hst with rfl | h4
          · exact h3
          · exact hl st (List.mem_cons_of_mem _ h4)
      · rw [show insertT ((k, t) :: rest) n fs s = (k, t) :: insertT rest n fs s from by
          simp [insertT, h1, h2]] at hst
        rcases List.mem_cons.mp hst with rfl | h4
        · exact hl (k, t) (List.mem_cons_self _ _)
        · exact ih n fs s (fun u hu => hl u (List.mem_cons_of_mem _ hu)) hn st h4

theorem foldl_no_zero_of_step_mem {α : Type} (F : Terms → α → Terms) :
    ∀ (l : List α), (∀ f x, x ∈ l → NoZeroT f → NoZeroT (F f x)) →
      ∀ f, NoZeroT f → NoZeroT (l.foldl F f) := by
  intro l
  induction l with
  | nil => intro _ f hf; exact hf
  | cons x rest ih =>
    intro hF f hf
    rw [List.foldl_cons]
    exact ih (fun f y hy => hF f y (List.mem_cons_of_mem _ hy)) _
      (hF f x (List.mem_cons_self _ _) hf)

theorem insertAll_no_zero (l acc : Terms) (hacc : NoZeroT acc) (hl : NoZeroT l) :
    NoZeroT (insertAll acc l) :=
  foldl_no_zero_of_step_mem _ l
    (fun f st hst hf => insertT_no_zero f _ _ _ hf (hl st hst)) acc hacc

theorem newExp_no_zero (ts : List (List Value)) : NoZeroE (NewExp ts) := by
  refine foldl_no_zero_of_step_mem _ ts ?_ [] (fun st h => absurd h (List.not_mem_nil st))
  intro f t _ hf
  cases hseg : Segment t with
  | none => exact hf
  | some trip =>
    obtain ⟨n, fs, tag⟩ := trip
    exact insertT_no_zero f n fs tag hf (segment_coeff_ne_zero hseg)

theorem sumE_no_zero (as : List Exp) (h : ∀ a ∈ as, NoZeroE a) : NoZeroE (SumE as) := by
  refine foldl_no_zero_of_step_mem _ as ?_ [] (fun st h => absurd h (List.not_mem_nil st))
  intro f a ha hf
  cases a with
  | none => exact hf
  | some l => exact insertAll_no_zero l f hf (h _ ha)

theorem addE_no_zero (a b : Exp) (ha : NoZeroE a) (hb : NoZeroE b) :
    NoZeroE (addE a b) := by
  refine sumE_no_zero [a, b] ?_
  intro x hx
  rcases List.mem_cons.mp hx with rfl | hx'
  · exact ha
  · rw [List.mem_singleton] at hx'
    rw [hx']
    exact hb

theorem subE_no_zero (a b : Exp) (ha : NoZeroE a) (hb : NoZeroE b) :
    NoZeroE (subE a b) := by
  refine foldl_no_zero_of_step_mem _ (b.getD []) ?_ _
    (insertAll_no_zero (a.getD []) [] (fun st h => absurd h (List.not_mem_nil st)) ha)
  intro f st hst hf
  refine insertT_no_zero f _ _ _ hf ?_
  exact mul_ne_zero (by norm_num) (hb st hst)

theorem mulE_no_zero (as : List Exp) (h : ∀ a ∈ as, NoZeroE a) : NoZeroE (MulE as) := by
  cases as with
  | nil => exact fun st hst => absurd hst (List.not_mem_nil st)
  | cons a rest =>
    refine foldl_no_zero_of_step_mem _ rest ?_ ((SumE [a]).getD [])
      (sumE_no_zero [a] (by
        intro x hx
        rw [List.mem_singleton] at hx
        rw [hx]
        exact h a (List.mem_cons_self _ _)))
    intro e b _ _
    refine foldl_no_zero_of_step_mem _ (b.getD []) ?_ []
      (fun st hst => absurd hst (List.not_mem_nil st))
    intro f p _ hf
    refine foldl_no_zero_of_step_mem _ e ?_ f hf
    intro f2 q _ hf2
    cases hseg : Segment ([R p.2.coeff, R q.2.coeff] ++ p.2.fact ++ q.2.fact) with
    | none => exact hf2
    | some trip =>
      obtain ⟨n, fs, tag⟩ := trip
      exact insertT_no_zero f2 n fs tag hf2 (segment_coeff_ne_zero hseg)

theorem modE_no_zero (e : Exp) (x : Value) (h : NoZeroE e) : NoZeroE (modE e x) := by
  cases hx : x.num with
  | none =>
    have he : modE e x = e := by unfold modE; rw [hx]
    rw [he]
    exact h
  | some q =>
    have he : ∀ (e2 : Exp), modE e2 x = (if q.den ≠ 1 then e2
        else match e2 with
          | none => none
          | some l => some (l.filterMap fun st =>
              if st.2.coeff.den ≠ 1 then some st
              else
                let u := st.2.coeff.num.emod q.num
                if u = 0 then none
                else some (st.1, ⟨(u : ℚ), st.2.fact⟩))) := by
      intro e2
      unfold modE
      rw [hx]
    rw [he e]
    by_cases hden : q.den ≠ 1
    · rw [if_pos hden]
      exact h
    · rw [if_neg hden]
      cases e with
      | none => exact fun st hst => absurd hst (List.not_mem_nil st)
      | some l =>
        intro st hst
        have hst' : st ∈ l.filterMap (fun st =>
            if st.2.coeff.den ≠ 1 then some st
            else
              let u := st.2.coeff.num.emod q.num
              if u = 0 then none
              else some (st.1, ⟨(u : ℚ), st.2.fact⟩)) := hst
        obtain ⟨u, hu, hmap⟩ := List.mem_filterMap.mp hst'
        by_cases hd : u.2.coeff.den ≠ 1
        · rw [if_pos hd] at hmap
          injection hmap with hmap'
          rw [← hmap']
          exact h u hu
        · rw [if_neg hd] at hmap
          have hmap2 : (if u.2.coeff.num.emod q.num = 0 then none
              else some (u.1, (⟨((u.2.coeff.num.emod q.num : Int) : ℚ), u.2.fact⟩ : Term))) =
                some st := hmap
          by_cases hu0 : u.2.coeff.num.emod q.num = 0
          · rw [if_pos hu0] at hmap2
            exact Option.noConfusion hmap2
          · rw [if_neg hu0] at hmap2
            injection hmap2 with hmap'
            rw [← hmap']
            intro hc
            apply hu0
            have hc2 : ((u.2.coeff.num.emod q.num : Int) : ℚ) = 0 := hc
            exact_mod_cast hc2

theorem foldl_pair_no_zero {α β : Type} (F : (Terms × β) → α → (Terms × β))
    (hF : ∀ acc x, NoZeroT acc.1 → NoZeroT (F acc x).1) :
    ∀ (l : List α) (acc : Terms × β), NoZeroT acc.1 → NoZeroT (l.foldl F acc).1 := by
  intro l
  induction l with
  | nil => intro acc h; exact h
  | cons x rest ih =>
    intro acc h
    rw [List.foldl_cons]
    exact ih _ (hF acc x h)

theorem substPass_no_zero (b : List Value) (s : List (List Value)) (g : Terms) :
    NoZeroT (substPass b s g).1 := by
  refine foldl_pair_no_zero _ ?_ g ([], false) (fun st h => absurd h (List.not_mem_nil st))
  intro acc st hacc
  obtain ⟨f, again⟩ := acc
  dsimp only
  cases hrep : replaceF 1 (R st.2.coeff :: st.2.fact) b zeroVs 1 with
  | mk hit y =>
    by_cases hhit : hit = 0
    · rw [if_pos hhit]
      cases hseg : Segment y with
      | none => exact hacc
      | some trip =>
        obtain ⟨n, fs, tag⟩ := trip
        exact insertT_no_zero f n fs tag hacc (segment_coeff_ne_zero hseg)
    · rw [if_neg hhit]
      by_cases hs : s = []
      · rw [if_pos hs]
        exact hacc
      · rw [if_neg hs]
        refine foldl_no_zero_of_step_mem _ s ?_ f hacc
        intro f2 t _ hf2
        dsimp only
        cases hseg : Segment ((replaceF 1 (R st.2.coeff :: st.2.fact) b t 1).2) with
        | none => exact hf2
        | some trip =>
          obtain ⟨n, fs, tag⟩ := trip
          exact insertT_no_zero f2 n fs tag hf2 (segment_coeff_ne_zero hseg)

theorem substLoop_no_zero (b : List Value) (s : List (List Value)) :
    ∀ (fuel : Nat) (g : Terms) (acted : Bool), NoZeroT g →
      NoZeroT (substLoop b s fuel g acted).1 := by
  intro fuel
  induction fuel with
  | zero => intro g acted h; exact h
  | succ n ih =>
    intro g acted h
    simp only [substLoop]
    cases hp : substPass b s g with
    | mk f again =>
      have hf : NoZeroT f := by
        have h2 := substPass_no_zero b s g
        rw [hp] at h2
        exact h2
      cases again with
      | false => exact hf
      | true => exact ih f true hf

theorem substitutedF_no_zero (fuel : Nat) (e : Exp) (b : List Value) (c : Exp)
    (h : NoZeroE e) : NoZeroE (SubstitutedF fuel e b c).1 := by
  unfold SubstitutedF
  by_cases hb : b = []
  · rw [if_pos hb]
    exact h
  · rw [if_neg hb]
    dsimp only
    cases hl : substLoop b ((c.getD []).map fun st => R st.2.coeff :: st.2.fact)
        fuel (e.getD []) false with
    | mk g acted =>
      have hg := substLoop_no_zero b ((c.getD []).map fun st => R st.2.coeff :: st.2.fact)
        fuel (e.getD []) false h
      rw [hl] at hg
      exact hg

theorem foldl_pair2_no_zero {α : Type} (F : (Terms × Terms) → α → (Terms × Terms))
    (hF : ∀ acc x, NoZeroT acc.1 → NoZeroT acc.2 →
      NoZeroT (F acc x).1 ∧ NoZeroT (F acc x).2) :
    ∀ (l : List α) (acc : Terms × Terms), NoZeroT acc.1 → NoZeroT acc.2 →
      NoZeroT (l.foldl F acc).1 ∧ NoZeroT (l.foldl F acc).2 := by
  intro l
  induction l with
  | nil => intro acc h1 h2; exact ⟨h1, h2⟩
  | cons x rest ih =>
    intro acc h1 h2
    rw [List.foldl_cons]
    exact ih _ (hF acc x h1 h2).1 (hF acc x h1 h2).2

theorem partitionE_no_zero (e : Exp) (b : List Value) :
    NoZeroE (partitionE e b).1 ∧ NoZeroE (partitionE e b).2 := by
  cases e with
  | none =>
    exact ⟨fun st hst => absurd hst (List.not_mem_nil st),
      fun st hst => absurd hst (List.not_mem_nil st)⟩
  | some l =>
    have haux := foldl_pair2_no_zero
      (fun (dr : Terms × Terms) st =>
        let a := R st.2.coeff :: st.2.fact
        let (hit, fac) := replaceF 1 a b oneVs 1
        if hit ≠ 0 then
          match Segment fac with
          | none => dr
          | some (n, fs, s) => (insertT dr.1 n fs s, dr.2)
        else
          match Segment a with
          | none => dr
          | some (n, fs, s) => (dr.1, insertT dr.2 n fs s))
      (by
        intro dr st h1 h2
        dsimp only
        cases hrep : replaceF 1 (R st.2.coeff :: st.2.fact) b oneVs 1 with
        | mk hit fac =>
          by_cases hhit : hit ≠ 0
          · rw [if_pos hhit]
            cases hseg : Segment fac with
            | none => exact ⟨h1, h2⟩
            | some trip =>
              obtain ⟨n, fs, tag⟩ := trip
              exact ⟨insertT_no_zero dr.1 n fs tag h1 (segment_coeff_ne_zero hseg), h2⟩
          · rw [if_neg hhit]
            cases hseg : Segment (R st.2.coeff :: st.2.fact) with
            | none => exact ⟨h1, h2⟩
            | some trip =>
              obtain ⟨n, fs, tag⟩ := trip
              exact ⟨h1, insertT_no_zero dr.2 n fs tag h2 (segment_coeff_ne_zero hseg)⟩)
      l ([], []) (fun st h => absurd h (List.not_mem_nil st))
      (fun st h => absurd h (List.not_mem_nil st))
    cases hfold : l.foldl
      (fun (dr : Terms × Terms) st =>
        let a := R st.2.coeff :: st.2.fact
        let (hit, fac) := replaceF 1 a b oneVs 1
        if hit ≠ 0 then
          match Segment fac with
          | none => dr
          | some (n, fs, s) => (insertT dr.1 n fs s, dr.2)
        else
          match Segment a with
          | none => dr
          | some (n, fs, s) => (dr.1, insertT dr.2 n fs s)) ([], []) with
    | mk d r =>
      rw [hfold] at haux
      have hres : partitionE (some l) b =
          (if d = [] then none else some d, if r = [] then none else some r) := by
        have hstep : partitionE (some l) b =
            match l.foldl
              (fun (dr : Terms × Terms) st =>
                let a := R st.2.coeff :: st.2.fact
                let (hit, fac) := replaceF 1 a b oneVs 1
                if hit ≠ 0 then
                  match Segment fac with
                  | none => dr
                  | some (n, fs, s) => (insertT dr.1 n fs s, dr.2)
                else
                  match Segment a with
                  | none => dr
                  | some (n, fs, s) => (dr.1, insertT dr.2 n fs s)) ([], []) with
            | (d, r) =>
              (if d = [] then none else some d, if r = [] then none else some r) := rfl
        rw [hstep, hfold]
      rw [hres]
      constructor
      · by_cases hd : d = []
        · rw [if_pos hd]
          exact fun st hst => absurd hst (List.not_mem_nil st)
        · rw [if_neg hd]
          exact haux.1
      · by_cases hr : r = []
        · rw [if_pos hr]
          exact fun st hst => absurd hst (List.not_mem_nil st)
        · rw [if_neg hr]
          exact haux.2

theorem isZero_iff (e : Exp) : IsZero e = true ↔ e = none ∨ e = some [] := by
  cases e with
  | none => simp [IsZero]
  | some l => cases l with
    | nil => simp [IsZero]
    | cons a t => simp [IsZero]

/-- C2: every expression produced by the public operations (`NewExp`,
`Add`, `Sub`, `Sum`, `Mul`, `Mod`, `Substituted`, `Partition`) contains
no term with a zero coefficient — a term whose combined coefficient
becomes exactly zero is deleted by `insert` — and the zero value is
represented exactly by the empty term mapping (or the nil pointer). -/
theorem exp_ops_no_zero_coeff :
    (∀ ts, NoZeroE (NewExp ts)) ∧
    (∀ a b, NoZeroE a → NoZeroE b → NoZeroE (addE a b)) ∧
    (∀ a b, NoZeroE a → NoZeroE b → NoZeroE (subE a b)) ∧
    (∀ as, (∀ a ∈ as, NoZeroE a) → NoZeroE (SumE as)) ∧
    (∀ as, (∀ a ∈ as, NoZeroE a) → NoZeroE (MulE as)) ∧
    (∀ e x, NoZeroE e → NoZeroE (modE e x)) ∧
    (∀ fuel e b c, NoZeroE e → NoZeroE (SubstitutedF fuel e b c).1) ∧
    (∀ e b, NoZeroE (partitionE e b).1 ∧ NoZeroE (partitionE e b).2) ∧
    (∀ e, IsZero e = true ↔ e = none ∨ e = some []) :=
  ⟨newExp_no_zero, addE_no_zero, subE_no_zero, sumE_no_zero, mulE_no_zero,
    modE_no_zero, substitutedF_no_zero, partitionE_no_zero, isZero_iff⟩

/-- C2 (witness): adding `2*x` and `-2*x` cancels the coefficient, the
result satisfies the invariant, and the zero result is the empty map. -/
theorem exp_ops_no_zero_coeff_witness :
    NoZeroE (addE (NewExp [[Iv 2, S ['x']]]) (NewExp [[Iv (-2), S ['x']]])) ∧
    IsZero (addE (NewExp [[Iv 2, S ['x']]]) (NewExp [[Iv (-2), S ['x']]])) = true := by
  refine ⟨exp_ops_no_zero_coeff.2.1 _ _ (by decide) (by decide), ?_⟩
  exact (exp_ops_no_zero_coeff.2.2.2.2.2.2.2.2
    (addE (NewExp [[Iv 2, S ['x']]]) (NewExp [[Iv (-2), S ['x']]]))).mpr
    (Or.inr (by decide))

/-! ### Substitution by the zero expression -/

/-- A term of an expression map in canonical form: its factor list is a
fixed point of `Simplify` and its key is the factor string — the shape
every public constructor produces. -/
abbrev CanonTerm (st : Str × Term) : Prop :=
  Simplify (R st.2.coeff :: st.2.fact) = R st.2.coeff :: st.2.fact ∧
  prodStr st.2.fact = st.1

theorem canon_segment {st : Str × Term} (h : CanonTerm st) :
    Segment (R st.2.coeff :: st.2.fact) = some (st.2.coeff, st.2.fact, st.1) := by
  unfold Segment
  rw [h.1]
  show some (st.2.coeff, st.2.fact, prodStr st.2.fact) = _
  rw [h.2]

theorem insertT_append : ∀ (acc : Terms) (n : ℚ) (fs : List Value) (s : Str),
    (∀ st ∈ acc, strLt st.1 s = true) →
    insertT acc n fs s = acc ++ [(s, ⟨n, fs⟩)] := by
  intro acc
  induction acc with
  | nil => intro n fs s _; rfl
  | cons kt rest ih =>
    intro n fs s h
    obtain ⟨k, t⟩ := kt
    have hks : strLt k s = true := h (k, t) (List.mem_cons_self _ _)
    have h1 : strLt s k = false := strLt_asymm hks
    have h2 : s ≠ k := by
      intro he
      rw [he, strLt_irrefl] at hks
      exact Bool.noConfusion hks
    rw [show insertT ((k, t) :: rest) n fs s = (k, t) :: insertT rest n fs s from by
      simp [insertT, h1, h2]]
    rw [ih n fs s (fun u hu => h u (List.mem_cons_of_mem _ hu))]
    rfl

theorem replaceLoop_one_zero_snd (pf c' : List Value) (mx : Int) (qf : List Value)
    (h : (replaceLoop pf c' 1 mx 0 qf).1 = 0) : (replaceLoop pf c' 1 mx 0 qf).2 = qf := by
  have hred : replaceLoop pf c' 1 mx 0 qf =
      (if pf ≠ [] ∧ (mx ≤ 0 ∨ ((0 : Nat) : Int) < mx) then
        match matchLoop pf qf [] with
        | none => ((0 : Nat), qf)
        | some nf => replaceLoop pf c' 0 mx (0 + 1) (Simplify (nf ++ c'))
      else ((0 : Nat), qf)) := rfl
  rw [hred] at h ⊢
  by_cases hc : pf ≠ [] ∧ (mx ≤ 0 ∨ ((0 : Nat) : Int) < mx)
  · rw [if_pos hc] at h ⊢
    cases hm : matchLoop pf qf [] with
    | none => rfl
    | some nf =>
      rw [hm] at h
      exact absurd (show (0 + 1 : Nat) = 0 from h) (by decide)
  · rw [if_neg hc]

theorem replaceF_zero_snd (a b c : List Value) (mx : Int)
    (h : (replaceF 1 a b c mx).1 = 0) : (replaceF 1 a b c mx).2 = Simplify a := by
  unfold replaceF at h ⊢
  cases hseg : Segment b with
  | none => rfl
  | some trip =>
    obtain ⟨pn, pf, tagp⟩ := trip
    rw [hseg] at h
    exact replaceLoop_one_zero_snd pf (c ++ [R pn⁻¹]) mx (Simplify a) h

theorem substPass_zero_aux (b : List Value) :
    ∀ (l : Terms) (f0 : Terms),
      (∀ st ∈ l, CanonTerm st) →
      List.Pairwise (fun x y => strLt x.1 y.1 = true) l →
      (∀ u ∈ f0, ∀ v ∈ l, strLt u.1 v.1 = true) →
      l.foldl
        (fun (acc : Terms × Bool) st =>
          let (f, again) := acc
          let a := R st.2.coeff :: st.2.fact
          let (hit, y) := replaceF 1 a b zeroVs 1
          if hit = 0 then
            match Segment y with
            | none => (f, again)
            | some (n, fs, tag) => (insertT f n fs tag, again)
          else if ([] : List (List Value)) = [] then (f, again)
          else
            (([] : List (List Value)).foldl
              (fun f t =>
                let y2 := (replaceF 1 a b t 1).2
                match Segment y2 with
                | none => f
                | some (n, fs, tag) => insertT f n fs tag) f, true))
        (f0, false) =
      (f0 ++ l.filter (fun st =>
        (replaceF 1 (R st.2.coeff :: st.2.fact) b zeroVs 1).1 = 0), false) := by
  intro l
  induction l with
  | nil =>
    intro f0 _ _ _
    simp
  | cons st rest ih =>
    intro f0 hcanon hpair hlt
    have hcst : CanonTerm st := hcanon st (List.mem_cons_self _ _)
    obtain ⟨hhead, htail⟩ := List.pairwise_cons.mp hpair
    rw [List.foldl_cons]
    dsimp only
    cases hrep : replaceF 1 (R st.2.coeff :: st.2.fact) b zeroVs 1 with
    | mk hit y =>
      by_cases hhit : hit = 0
      · subst hhit
        have hp0 : (replaceF 1 (R st.2.coeff :: st.2.fact) b zeroVs 1).1 = 0 := by
          rw [hrep]
        have hy : y = R st.2.coeff :: st.2.fact := by
          have h2 : (replaceF 1 (R st.2.coeff :: st.2.fact) b zeroVs 1).2 =
              Simplify (R st.2.coeff :: st.2.fact) :=
            replaceF_zero_snd _ _ _ _ hp0
          rw [hrep] at h2
          exact h2.trans hcst.1
        dsimp only
        rw [if_pos (show (0 : Nat) = 0 from rfl), hy, canon_segment hcst]
        dsimp only
        rw [insertT_append f0 st.2.coeff st.2.fact st.1
          (fun u hu => hlt u hu st (List.mem_cons_self _ _))]
        have hstep := ih (f0 ++ [st])
          (fun u hu => hcanon u (List.mem_cons_of_mem _ hu)) htail
          (by
            intro u hu v hv
            rcases List.mem_append.mp hu with hu1 | hu2
            · exact hlt u hu1 v (List.mem_cons_of_mem _ hv)
            · rw [List.mem_singleton] at hu2
              rw [hu2]
              exact hhead v hv)
        rw [show f0 ++ [(st.1, (⟨st.2.coeff, st.2.fact⟩ : Term))] = f0 ++ [st] from rfl,
          hstep, List.append_assoc]
        rw [List.filter_cons, if_pos (by simpa using hp0)]
        rfl
      · have hp0 : ¬ (replaceF 1 (R st.2.coeff :: st.2.fact) b zeroVs 1).1 = 0 := by
          rw [hrep]
          exact hhit
        dsimp only
        rw [if_neg hhit, if_pos rfl]
        have hstep := ih f0
          (fun u hu => hcanon u (List.mem_cons_of_mem _ hu)) htail
          (fun u hu v hv => hlt u hu v (List.mem_cons_of_mem _ hv))
        rw [hstep, List.filter_cons, if_neg (by simpa using hp0)]

theorem substPass_zero (b : List Value) (l : Terms)
    (hcanon : ∀ st ∈ l, CanonTerm st)
    (hpair : List.Pairwise (fun x y => strLt x.1 y.1 = true) l) :
    substPass b [] l = (l.filter (fun st =>
      (replaceF 1 (R st.2.coeff :: st.2.fact) b zeroVs 1).1 = 0), false) := by
  have h := substPass_zero_aux b l [] hcanon hpair
    (fun u hu => absurd hu (List.not_mem_nil u))
  rw [List.nil_append] at h
  exact h

theorem substitutedF_zero_filter (fuel : Nat) (l : Terms) (b : List Value) (c : Exp)
    (hb : b ≠ []) (hc : c.getD [] = [])
    (hcanon : ∀ st ∈ l, CanonTerm st)
    (hpair : List.Pairwise (fun x y => strLt x.1 y.1 = true) l) :
    SubstitutedF (fuel + 1) (some l) b c =
      (some (l.filter (fun st =>
        (replaceF 1 (R st.2.coeff :: st.2.fact) b zeroVs 1).1 = 0)), false) := by
  unfold SubstitutedF
  rw [if_neg hb]
  dsimp only [Option.getD_some]
  rw [hc, List.map_nil]
  have hloop : substLoop b [] (fuel + 1) l false =
      (l.filter (fun st =>
        (replaceF 1 (R st.2.coeff :: st.2.fact) b zeroVs 1).1 = 0), false) := by
    simp only [substLoop]
    rw [substPass_zero b l hcanon hpair]
    rfl
  rw [hloop]

/-- C8: substituting a non-empty pattern `b` by the zero expression
(`c` with an empty term map) deletes exactly the terms containing `b`
and keeps every other term unchanged — for every canonically-built term
map the result is the literal filter of the non-matching entries; in
particular `(a^2+b^2).Substitute([a], 0)` equals `b^2`. -/
theorem substitute_zero_deletes :
    (∀ (fuel : Nat) (l : Terms) (b : List Value) (c : Exp),
      b ≠ [] → c.getD [] = [] →
      (∀ st ∈ l, CanonTerm st) →
      List.Pairwise (fun x y => strLt x.1 y.1 = true) l →
      SubstituteF (fuel + 1) (some l) b c =
        some (l.filter (fun st =>
          (replaceF 1 (R st.2.coeff :: st.2.fact) b zeroVs 1).1 = 0))) ∧
    SubstituteF 5 (NewExp [[Sp ['a'] 2], [Sp ['b'] 2]]) [S ['a']] (NewExp []) =
      NewExp [[Sp ['b'] 2]] := by
  constructor
  · intro fuel l b c hb hc hcanon hpair
    unfold SubstituteF
    rw [substitutedF_zero_filter fuel l b c hb hc hcanon hpair]
  · decide

/-- C8 (witness): the general clause applied to the concrete canonical
map of `a^2 + b^2` with pattern `a`, deleting the `a^2` term. -/
theorem substitute_zero_deletes_witness :
    SubstituteF 3 (some [(['a', '^', '2'], ⟨1, [Sp ['a'] 2]⟩),
        (['b', '^', '2'], ⟨1, [Sp ['b'] 2]⟩)]) [S ['a']] (some []) =
      some [(['b', '^', '2'], ⟨1, [Sp ['b'] 2]⟩)] := by
  have h := substitute_zero_deletes.1 2
    [(['a', '^', '2'], ⟨1, [Sp ['a'] 2]⟩), (['b', '^', '2'], ⟨1, [Sp ['b'] 2]⟩)]
    [S ['a']] (some []) (by decide) (by decide) (by decide) (by decide)
  rw [h]
  decide

/-! ### The Replace loop -/

/-- Specification-side subtraction, written from the spec's words: walk
the pattern through the factor list, requiring each pattern symbol to
appear with an exponent of the same sign, subtract the pattern's
exponent and keep a nonzero leftover; `none` is "no match". To be
compared with the accumulator-passing `matchLoop` of the source. -/
def specSubtract : List Value → List Value → Option (List Value)
  | [], qf => some qf
  | _ :: _, [] => none
  | t :: pf, u :: qf =>
    if u.num.isSome || t.sym ≠ u.sym then
      (specSubtract (t :: pf) qf).map (fun r => u :: r)
    else if t.pow * u.pow < 0 then none
    else if (u.pow - t.pow) * t.pow < 0 then none
    else
      (specSubtract pf qf).map (fun r =>
        if u.pow - t.pow ≠ 0 then Sp t.sym (u.pow - t.pow) :: r else r)

theorem matchLoop_same_sign :
    ∀ (qf pf nf out : List Value), matchLoop pf qf nf = some out →
      ∀ t ∈ pf, ∃ u ∈ qf, u.num = none ∧ u.sym = t.sym ∧ 0 ≤ t.pow * u.pow := by
  intro qf
  induction qf with
  | nil =>
    intro pf nf out h t ht
    cases pf with
    | nil => exact absurd ht (List.not_mem_nil t)
    | cons t0 pf0 => exact Option.noConfusion h
  | cons u qf ih =>
    intro pf nf out h t ht
    cases pf with
    | nil => exact absurd ht (List.not_mem_nil t)
    | cons t0 pf0 =>
      cases hnum : u.num with
      | some q =>
        rw [show matchLoop (t0 :: pf0) (u :: qf) nf =
            matchLoop (t0 :: pf0) qf (nf ++ [u]) from by
          simp [matchLoop, hnum]] at h
        obtain ⟨u', hu', hprop⟩ := ih (t0 :: pf0) (nf ++ [u]) out h t ht
        exact ⟨u', List.mem_cons_of_mem _ hu', hprop⟩
      | none =>
        by_cases hsym : t0.sym = u.sym
        · by_cases h2 : t0.pow * u.pow < 0
          · rw [show matchLoop (t0 :: pf0) (u :: qf) nf = none from by
              simp [matchLoop, hnum, hsym, h2]] at h
            exact Option.noConfusion h
          · by_cases h3 : (u.pow - t0.pow) * t0.pow < 0
            · rw [show matchLoop (t0 :: pf0) (u :: qf) nf = none from by
                simp [matchLoop, hnum, hsym, h2, h3]] at h
              exact Option.noConfusion h
            · rw [show matchLoop (t0 :: pf0) (u :: qf) nf =
                  matchLoop pf0 qf (nf ++
                    (if u.pow - t0.pow ≠ 0 then [Sp t0.sym (u.pow - t0.pow)] else []))
                  from by simp [matchLoop, hnum, hsym, h2, h3]] at h
              rcases List.mem_cons.mp ht with rfl | ht0
              · exact ⟨u, List.mem_cons_self _ _, hnum, hsym.symm, not_lt.mp h2⟩
              · obtain ⟨u', hu', hprop⟩ := ih pf0 _ out h t ht0
                exact ⟨u', List.mem_cons_of_mem _ hu', hprop⟩
        · rw [show matchLoop (t0 :: pf0) (u :: qf) nf =
              matchLoop (t0 :: pf0) qf (nf ++ [u]) from by
            simp [matchLoop, hnum, hsym]] at h
          obtain ⟨u', hu', hprop⟩ := ih (t0 :: pf0) (nf ++ [u]) out h t ht
          exact ⟨u', List.mem_cons_of_mem _ hu', hprop⟩

theorem matchLoop_eq_specSubtract :
    ∀ (qf pf nf : List Value),
      matchLoop pf qf nf = (specSubtract pf qf).map (fun r => nf ++ r) := by
  intro qf
  induction qf with
  | nil =>
    intro pf nf
    cases pf with
    | nil => simp [matchLoop, specSubtract]
    | cons t pf0 => simp [matchLoop, specSubtract]
  | cons u qf ih =>
    intro pf nf
    cases pf with
    | nil => simp [matchLoop, specSubtract]
    | cons t pf0 =>
      cases hnum : u.num with
      | some q =>
        rw [show matchLoop (t :: pf0) (u :: qf) nf =
            matchLoop (t :: pf0) qf (nf ++ [u]) from by simp [matchLoop, hnum]]
        rw [ih (t :: pf0) (nf ++ [u])]
        rw [show specSubtract (t :: pf0) (u :: qf) =
            (specSubtract (t :: pf0) qf).map (fun r => u :: r) from by
          simp [specSubtract, hnum]]
        cases specSubtract (t :: pf0) qf <;> simp
      | none =>
        by_cases hsym : t.sym = u.sym
        · by_cases h2 : t.pow * u.pow < 0
          · simp [matchLoop, specSubtract, hnum, hsym, h2]
          · by_cases h3 : (u.pow - t.pow) * t.pow < 0
            · simp [matchLoop, specSubtract, hnum, hsym, h2, h3]
            · rw [show matchLoop (t :: pf0) (u :: qf) nf =
                  matchLoop pf0 qf (nf ++
                    (if u.pow - t.pow ≠ 0 then [Sp t.sym (u.pow - t.pow)] else []))
                  from by simp [matchLoop, hnum, hsym, h2, h3]]
              rw [ih pf0 _]
              rw [show specSubtract (t :: pf0) (u :: qf) =
                  (specSubtract pf0 qf).map (fun r =>
                    if u.pow - t.pow ≠ 0 then Sp t.sym (u.pow - t.pow) :: r else r)
                  from by simp [specSubtract, hnum, hsym, h2, h3]]
              cases specSubtract pf0 qf with
              | none => simp
              | some r =>
                by_cases h4 : u.pow - t.pow ≠ 0 <;> simp [h4]
        · rw [show matchLoop (t :: pf0) (u :: qf) nf =
              matchLoop (t :: pf0) qf (nf ++ [u]) from by simp [matchLoop, hnum, hsym]]
          rw [ih (t :: pf0) (nf ++ [u])]
          rw [show specSubtract (t :: pf0) (u :: qf) =
              (specSubtract (t :: pf0) qf).map (fun r => u :: r) from by
            simp [specSubtract, hnum, hsym]]
          cases specSubtract (t :: pf0) qf <;> simp

theorem replaceLoop_stop (pf c' : List Value) (fuel : Nat) (mx : Int) (n : Nat)
    (qf : List Value) (h : matchLoop pf qf [] = none) :
    replaceLoop pf c' (fuel + 1) mx n qf = (n, qf) := by
  simp only [replaceLoop]
  by_cases hc : pf ≠ [] ∧ (mx ≤ 0 ∨ (n : Int) < mx)
  · rw [if_pos hc, h]
  · rw [if_neg hc]

theorem replaceLoop_step (pf c' : List Value) (fuel : Nat) (mx : Int) (n : Nat)
    (qf nf : List Value) (hpf : pf ≠ []) (hmx : mx ≤ 0 ∨ (n : Int) < mx)
    (h : matchLoop pf qf [] = some nf) :
    replaceLoop pf c' (fuel + 1) mx n qf =
      replaceLoop pf c' fuel mx (n + 1) (Simplify (nf ++ c')) := by
  simp only [replaceLoop]
  rw [if_pos ⟨hpf, hmx⟩, h]

theorem replaceF_top (fuel : Nat) (a b c : List Value) (mx : Int) (pn : ℚ)
    (pf : List Value) (tag : Str) (hseg : Segment b = some (pn, pf, tag)) :
    replaceF fuel a b c mx = replaceLoop pf (c ++ [R pn⁻¹]) fuel mx 0 (Simplify a) := by
  unfold replaceF
  rw [hseg]

/-- C1: `factor.Replace(a, b, c, max)` works on the simplified form of
`a`; a match requires every symbol of the pattern (the symbolic part of
`Segment(b)`) to appear with an exponent of the same sign; the matching
scan is exactly the spec-side subtraction `specSubtract` (pattern
exponents subtracted, nonzero leftovers kept); each match rewrites the
list to the simplified concatenation with one copy of `c` and the
reciprocal `R pn⁻¹` of the pattern's coefficient and counts one
replacement; a failed match stops the loop, returning the count and the
current simplified list. -/
theorem replace_matches_and_subtracts :
    (∀ (pf qf nf out : List Value), matchLoop pf qf nf = some out →
      ∀ t ∈ pf, ∃ u ∈ qf, u.num = none ∧ u.sym = t.sym ∧ 0 ≤ t.pow * u.pow) ∧
    (∀ (pf qf nf : List Value),
      matchLoop pf qf nf = (specSubtract pf qf).map (fun r => nf ++ r)) ∧
    (∀ (pf c' : List Value) (fuel : Nat) (mx : Int) (n : Nat) (qf : List Value),
      matchLoop pf qf [] = none →
      replaceLoop pf c' (fuel + 1) mx n qf = (n, qf)) ∧
    (∀ (pf c' : List Value) (fuel : Nat) (mx : Int) (n : Nat) (qf nf : List Value),
      pf ≠ [] → (mx ≤ 0 ∨ (n : Int) < mx) →
      matchLoop pf qf [] = some nf →
      replaceLoop pf c' (fuel + 1) mx n qf =
        replaceLoop pf c' fuel mx (n + 1) (Simplify (nf ++ c'))) ∧
    (∀ (fuel : Nat) (a b c : List Value) (mx : Int) (pn : ℚ)
        (pf : List Value) (tag : Str),
      Segment b = some (pn, pf, tag) →
      replaceF fuel a b c mx = replaceLoop pf (c ++ [R pn⁻¹]) fuel mx 0 (Simplify a)) :=
  ⟨fun pf qf => matchLoop_same_sign qf pf,
    fun pf qf => matchLoop_eq_specSubtract qf pf,
    replaceLoop_stop, replaceLoop_step, replaceF_top⟩

/-- C1 (witness): the characterization applied to concrete inputs —
the pattern `x` matched against `x^2*y` (same-sign presence of `x`),
an early stop on the unmatched list `y`, one counted match of `x`
against `x`, and the top-level call with pattern `x` and replacement
`z`. -/
theorem replace_matches_and_subtracts_witness :
    (∃ u ∈ [R 1, Sp ['x'] 2, S ['y']], u.num = none ∧ u.sym = (S ['x']).sym ∧
      0 ≤ (S ['x']).pow * u.pow) ∧
    replaceLoop [S ['x']] [R 1] (0 + 1) 0 0 [S ['y']] = (0, [S ['y']]) ∧
    replaceLoop [S ['x']] [S ['z'], R 1] (1 + 1) 1 0 [S ['x']] =
      replaceLoop [S ['x']] [S ['z'], R 1] 1 1 (0 + 1) (Simplify ([] ++ [S ['z'], R 1])) ∧
    replaceF 2 [S ['x']] [S ['x']] [S ['z']] 1 =
      replaceLoop [S ['x']] ([S ['z']] ++ [R (1 : ℚ)⁻¹]) 2 1 0 (Simplify [S ['x']]) := by
  refine ⟨?_, ?_, ?_, ?_⟩
  · exact replace_matches_and_subtracts.1 [S ['x'], S ['y']] [R 1, Sp ['x'] 2, S ['y']] []
      [R 1, Sp ['x'] 1] (by decide) (S ['x']) (by decide)
  · exact replace_matches_and_subtracts.2.2.1 [S ['x']] [R 1] 0 0 0 [S ['y']] (by decide)
  · exact replace_matches_and_subtracts.2.2.2.1 [S ['x']] [S ['z'], R 1] 1 1 0 [S ['x']] []
      (by decide) (by decide) (by decide)
  · exact replace_matches_and_subtracts.2.2.2.2 2 [S ['x']] [S ['x']] [S ['z']] 1 1
      [S ['x']] ['x'] (by decide)

end Algex
